import Mathlib

/-
Shallow embedding of the Incremental Local Outlier Factor (ILOF) detector
of river/anomaly/ilof.py.

Modelling conventions:
* Observations are feature vectors over exact rationals (a Python dict of
  numeric feature values becomes a dense List of rationals; the default
  river minkowski distance with p = 2 treats missing keys as zero and takes
  no root, so it is rational valued on rational inputs).
* The Python dictionaries keyed by the consecutive integer identities
  0, 1, ..., n-1 become Lean lists indexed by position; the inner
  dictionaries (per-identity distance and reachability rows) become
  association lists kept in insertion order, with assignment overwriting
  in place exactly as a Python dict does.
* Python float("inf") in the k-distance table becomes the top element of
  WithTop Rat.
* An uncaught Python exception (KeyError, IndexError, TypeError,
  ZeroDivisionError) is modelled by the value none; fallible stages return
  Option.  The still-unset placeholder value [] that the code stores in
  local_reach and lof before first computing them is modelled by none in a
  List (Option Rat).
* The pluggable approximate nearest-neighbor engine (SWINN) is outside the
  repository; its search method is abstracted as an oracle parameter.
-/

namespace ILOF

/-- A stored feature vector. -/
abbrev Obs := List ℚ

/-- river utils.math.minkowski_distance with p = 2: the sum of squared
componentwise differences over the union of keys, missing keys read as 0.
No square root is taken. -/
def sqSum : List ℚ → ℚ
  | [] => 0
  | b :: bs => b * b + sqSum bs

/-- Structural core of the p = 2 minkowski distance. -/
def sqDiffSum : Obs → Obs → ℚ
  | [], ys => sqSum ys
  | a :: xs, [] => a * a + sqDiffSum xs []
  | a :: xs, b :: bs => (a - b) * (a - b) + sqDiffSum xs bs

/-- First-match association-list lookup, the semantics of a Python dict
read on a list of key-value pairs. -/
def alookup (k : ℕ) : List (ℕ × α) → Option α
  | [] => none
  | (k2, v) :: t => if k = k2 then some v else alookup k t

/-- Python dict assignment d[k] = v on an association list: overwrite in
place if the key exists, append at the end otherwise. -/
def upsert (l : List (ℕ × α)) (k : ℕ) (v : α) : List (ℕ × α) :=
  match l with
  | [] => [(k, v)]
  | (k2, v2) :: t => if k2 = k then (k, v) :: t else (k2, v2) :: upsert t k v

/-- The key list of an association list (Python dict iteration order). -/
def keysOf (l : List (ℕ × α)) : List ℕ := l.map Prod.fst

/-- Insert into a sorted list of rationals (helper for isort). -/
def qinsert (x : ℚ) : List ℚ → List ℚ
  | [] => [x]
  | y :: t => if x ≤ y then x :: y :: t else y :: qinsert x t

/-- Python sorted() on a list of rationals (ascending insertion sort;
any correct sort produces the same value list). -/
def isort : List ℚ → List ℚ
  | [] => []
  | x :: t => qinsert x (isort t)

/-- Python list indexing with negative-index wraparound; none models an
IndexError. -/
def pyGet (l : List ℚ) (i : ℤ) : Option ℚ :=
  if 0 ≤ i then l.get? i.toNat
  else if (-i).toNat ≤ l.length then l.get? (l.length - (-i).toNat)
  else none

/-- A reachability row: per "from" identity, the map from target identity
to reachability distance. -/
abbrev RInner := List (ℕ × WithTop ℚ)

/-- The search engine abstraction: given the stored data, a query item and
n_neighbors, return neighbor items with their distances (SWINN.search). -/
abbrev Oracle := List (Obs × ℕ) → (Obs × ℕ) → ℤ → List ((Obs × ℕ) × ℚ)

/-- The mutable attributes of an ILOF object (ILOF.__init__). -/
structure State where
  n_neighbors : ℤ
  warm_up : ℤ
  verbose : Bool
  nn : List (Obs × ℕ)
  count : ℕ
  dist_dict : List (List (ℕ × ℚ))
  neighborhoods : List (List ℕ)
  rev_neighborhoods : List (List ℕ)
  k_dist : List (WithTop ℚ)
  reach_dist : List RInner
  local_reach : List (Option ℚ)
  lof : List (Option ℚ)
  X_batch : List Obs
  X_score : List Obs
deriving DecidableEq

/-- ILOF.__init__: the constructor performs no validation of n_neighbors
or warm_up; it stores the parameters and empty containers. -/
def init (n_neighbors warm_up : ℤ) : State :=
  { n_neighbors := n_neighbors, warm_up := warm_up, verbose := true,
    nn := [], count := 0, dist_dict := [], neighborhoods := [],
    rev_neighborhoods := [], k_dist := [], reach_dist := [],
    local_reach := [], lof := [], X_batch := [], X_score := [] }

/-- ILOF.check_equal: drop the batch entries equal to some already stored
vector; report how many were dropped.  Comparison is only against the
stored data Y, never within the batch itself. -/
def check_equal (X : List Obs) (Y : List (Obs × ℕ)) : List Obs × ℕ :=
  let r := X.filter (fun x => decide (¬ ∃ y ∈ Y, x = y.1))
  (r, X.length - r.length)

/-- The sizes and expanded containers produced by ILOF.expand_objects.
The Python code also resets every neighborhoods, rev_neighborhoods and
k_dist entry; those three are rebuilt from scratch by
initial_calculations, so the reset is absorbed there. -/
structure Pre where
  n_x : ℕ
  n_new : ℕ
  nn2 : List (Obs × ℕ)
  dist0 : List (List (ℕ × ℚ))
  reach0 : List RInner
  lr0 : List (Option ℚ)
  lof0 : List (Option ℚ)

/-- ILOF.expand_objects: append the new particles to the store, paired
with fresh identities count, count+1, ..., and grow each per-identity
container with an empty slot per new identity. -/
def expandPre (s : State) (Xf : List Obs) : Pre :=
  { n_x := s.nn.length, n_new := Xf.length,
    nn2 := s.nn ++ Xf.enum.map (fun p => (p.2, s.count + p.1)),
    dist0 := s.dist_dict ++ List.replicate Xf.length [],
    reach0 := s.reach_dist ++ List.replicate Xf.length [],
    lr0 := s.local_reach ++ List.replicate Xf.length none,
    lof0 := s.lof ++ List.replicate Xf.length none }

/-- The brute-force branch of ILOF.calculate_dist: every pair (i, j) with
j < i and i a new identity. -/
def bruteDist (n_x n_new : ℕ) (nn : List (Obs × ℕ)) : List (ℕ × ℕ × ℚ) :=
  (List.range (n_x + n_new)).flatMap (fun i =>
    if n_x ≤ i then
      (List.range i).map (fun j =>
        (i, j, sqDiffSum (nn.getD i ([], 0)).1 (nn.getD j ([], 0)).1))
    else [])

/-- ILOF.calculate_dist: brute force below the warm-up threshold,
otherwise one engine search per new identity, self-pairs filtered out. -/
def calculate_dist (k wu : ℤ) (oracle : Oracle) (n_x n_new : ℕ)
    (nn : List (Obs × ℕ)) : List (ℕ × ℕ × ℚ) :=
  if (nn.length : ℤ) < wu then bruteDist n_x n_new nn
  else
    (List.range' n_x n_new).flatMap (fun i =>
      let q := nn.getD i ([], 0)
      (oracle nn q k).filterMap (fun pd =>
        if q.2 ≠ pd.1.2 then some (q.2, pd.1.2, pd.2) else none))

/-- One new-distance record dist_dict[a][b] = d; dist_dict[b][a] = d.
none models the KeyError raised when a row is missing. -/
def addDist (dd : List (List (ℕ × ℚ))) (t : ℕ × ℕ × ℚ) :
    Option (List (List (ℕ × ℚ))) :=
  if t.1 < dd.length ∧ t.2.1 < dd.length then
    let dd1 := dd.set t.1 (upsert (dd.getD t.1 []) t.2.1 t.2.2)
    some (dd1.set t.2.1 (upsert (dd1.getD t.2.1 []) t.1 t.2.2))
  else none

/-- The first loop of ILOF.initial_calculations: record all new distances
symmetrically. -/
def augment (dd : List (List (ℕ × ℚ))) (ts : List (ℕ × ℕ × ℚ)) :
    Option (List (List (ℕ × ℚ))) :=
  ts.foldlM addDist dd

/-- k_distances[i] = sorted(inner.values())[min(k, len) - 1]; none models
the IndexError on an empty row. -/
def computeKdist (k : ℤ) (inner : List (ℕ × ℚ)) : Option (WithTop ℚ) :=
  (pyGet (isort (inner.map Prod.snd)) (min k (inner.length : ℤ) - 1)).map
    (fun q => (q : WithTop ℚ))

/-- Keep only the row entries at distance at most the row k-distance. -/
def pruneDist (aug : List (List (ℕ × ℚ))) (kd : List (WithTop ℚ)) :
    List (List (ℕ × ℚ)) :=
  (aug.zip kd).map (fun p => p.1.filter (fun e => decide ((e.2 : WithTop ℚ) ≤ p.2)))

/-- rev_neighborhoods[j].append(i) for one i, j. -/
def appendAt (rv : List (List ℕ)) (j p : ℕ) : List (List ℕ) :=
  rv.set j (rv.getD j [] ++ [p])

/-- The reverse-neighborhood construction of ILOF.initial_calculations,
starting from the freshly reset empty rows; none models the KeyError on a
neighbor identity outside the key range. -/
def buildRev (n : ℕ) (neigh : List (List ℕ)) : Option (List (List ℕ)) :=
  (List.range n).foldlM
    (fun rv p =>
      (neigh.getD p []).foldlM
        (fun rv2 j => if j < rv2.length then some (appendAt rv2 j p) else none)
        rv)
    (List.replicate n [])

/-- ILOF.initial_calculations: record new distances, recompute every
k-distance, prune each row to its neighbors, read the neighborhoods off
the pruned rows and rebuild the reverse neighborhoods.
Returns (augmented rows, pruned rows, k-distances, neighborhoods,
reverse neighborhoods); the augmented rows are what the in-place dict
mutation leaves behind in self.dist_dict, the pruned rows are the
function's return value. -/
def initial_calculations (k : ℤ) (dist0 : List (List (ℕ × ℚ)))
    (nds : List (ℕ × ℕ × ℚ)) :
    Option (List (List (ℕ × ℚ)) × List (List (ℕ × ℚ)) × List (WithTop ℚ) ×
      List (List ℕ) × List (List ℕ)) := do
  let aug ← augment dist0 nds
  let kd ← aug.mapM (computeKdist k)
  let pruned := pruneDist aug kd
  let neigh := pruned.map keysOf
  let rev ← buildRev aug.length neigh
  pure (aug, pruned, kd, neigh, rev)

/-- Insert into a canonical (ascending, duplicate-free) list of naturals;
Python sets are modelled as such lists. -/
def sinsert (x : ℕ) : List ℕ → List ℕ
  | [] => [x]
  | y :: t => if x < y then x :: y :: t else if x = y then y :: t else y :: sinsert x t

/-- Python set union a | set(b). -/
def setUnion (a b : List ℕ) : List ℕ := b.foldl (fun acc x => sinsert x acc) a

/-- ILOF.define_sets: the new points, their reverse neighbors, the set of
points whose lrd must be updated, and the set of points whose LOF must be
updated. -/
def define_sets (n_x n_new : ℕ) (rev : List (List ℕ)) :
    List ℕ × List ℕ × List ℕ × List ℕ :=
  let sNew := List.range' n_x n_new
  let sRev := sNew.foldl (fun acc i => setUnion acc (rev.getD i [])) []
  let lrd0 := sRev.foldl (fun acc j => setUnion acc (rev.getD j [])) sRev
  let sLrd := setUnion lrd0 sNew
  let sLof := sLrd.foldl (fun acc m => setUnion acc (rev.getD m [])) sLrd
  (sNew, sRev, sLrd, sLof)

/-- One reachability write reach_dist[a][b] = max(dist_dict[a][b],
k_dist[b]); none models the KeyErrors on a missing distance entry, a
missing k_dist key or a missing reach_dist row. -/
def reachWrite (pruned : List (List (ℕ × ℚ))) (kd : List (WithTop ℚ))
    (rd : List RInner) (w : ℕ × ℕ) : Option (List RInner) := do
  let d ← alookup w.2 (pruned.getD w.1 [])
  if w.2 < kd.length ∧ w.1 < rd.length then
    pure (rd.set w.1 (upsert (rd.getD w.1 []) w.2 (max (d : WithTop ℚ) (kd.getD w.2 ⊤))))
  else none

/-- Apply a sequence of reachability writes. -/
def applyWrites (pruned : List (List (ℕ × ℚ))) (kd : List (WithTop ℚ))
    (ws : List (ℕ × ℕ)) (rd : List RInner) : Option (List RInner) :=
  ws.foldlM (reachWrite pruned kd)  rd

/-- The write list of ILOF.calc_reach_dist_newpoints: for every new point
c, (c, j) for each neighbor j of c and (j, c) for each reverse neighbor j
of c. -/
def writesNew (sNew : List ℕ) (neigh rev : List (List ℕ)) : List (ℕ × ℕ) :=
  sNew.flatMap (fun c =>
    (neigh.getD c []).map (fun j => (c, j)) ++ (rev.getD c []).map (fun j => (j, c)))

/-- The write list of ILOF.calc_reach_dist_otherpoints: (i, j) for every
j in the reverse-neighbor set and every i in the reverse neighborhood of
j. -/
def writesOther (sRev : List ℕ) (rev : List (List ℕ)) : List (ℕ × ℕ) :=
  sRev.flatMap (fun j => (rev.getD j []).map (fun i => (i, j)))

/-- The untop of a finite WithTop rational (0 at the top element; callers
guard the top case separately). -/
def unTop (x : WithTop ℚ) : ℚ := WithTop.untop' 0 x

/-- Python len / sum on a float sum that may be inf: a finite value
divided by inf is 0.0.  Division by zero is excluded by the caller. -/
def pydivW (m : ℕ) (d : WithTop ℚ) : ℚ := if d = ⊤ then 0 else (m : ℚ) / unTop d

/-- The denominator of the lrd formula for identity i: the sum of the
reachability distances from i to its neighbors; none models the KeyError
on a missing reachability entry. -/
def lrdDenom (neigh : List (List ℕ)) (rd : List RInner) (i : ℕ) :
    Option (WithTop ℚ) :=
  ((neigh.getD i []).mapM (fun j => alookup j (rd.getD i []))).map
    (fun ts => ts.foldl (· + ·) 0)

/-- One iteration of ILOF.calc_local_reach_dist: local_reach_dist[i] =
len(neighborhoods[i]) / sum(reach_dist[i][j] for j in neighborhoods[i]);
none models the ZeroDivisionError on a zero denominator. -/
def lrdStep (neigh : List (List ℕ)) (rd : List RInner)
    (lr : List (Option ℚ)) (i : ℕ) : Option (List (Option ℚ)) := do
  let denom ← lrdDenom neigh rd i
  if denom = 0 then none
  else pure (lr.set i (some (pydivW (neigh.getD i []).length denom)))

/-- ILOF.calc_local_reach_dist over the lrd-update set. -/
def calc_local_reach_dist (S : List ℕ) (neigh : List (List ℕ))
    (rd : List RInner) (lr : List (Option ℚ)) : Option (List (Option ℚ)) :=
  S.foldlM (lrdStep neigh rd) lr

/-- One iteration of ILOF.calc_lof: lof[i] = sum(local_reach[j] for j in
neighborhoods[i]) / (len(neighborhoods[i]) * local_reach[i]); none models
the TypeError on a still-unset local_reach entry and the
ZeroDivisionError on a zero denominator. -/
def lofStep (neigh : List (List ℕ)) (lr : List (Option ℚ))
    (acc : List (Option ℚ)) (i : ℕ) : Option (List (Option ℚ)) := do
  let ts ← (neigh.getD i []).mapM (fun j => lr.getD j none)
  let lri ← lr.getD i none
  let den := ((neigh.getD i []).length : ℚ) * lri
  if den = 0 then none
  else pure (acc.set i (some (ts.foldl (· + ·) 0 / den)))

/-- ILOF.calc_lof over the LOF-update set. -/
def calc_lof (S : List ℕ) (neigh : List (List ℕ)) (lr : List (Option ℚ))
    (lof0 : List (Option ℚ)) : Option (List (Option ℚ)) :=
  S.foldlM (lofStep neigh lr) lof0

/-- The intermediate and final values of one run of the shared
learn/score pipeline. -/
structure Parts where
  n_x : ℕ
  n_new : ℕ
  nn2 : List (Obs × ℕ)
  aug : List (List (ℕ × ℚ))
  pruned : List (List (ℕ × ℚ))
  kd : List (WithTop ℚ)
  neigh : List (List ℕ)
  rev : List (List ℕ)
  sNew : List ℕ
  sRev : List ℕ
  sLrd : List ℕ
  sLof : List ℕ
  reach : List RInner
  lreach : List (Option ℚ)
  lofd : List (Option ℚ)
deriving DecidableEq

/-- The four-stage pipeline shared by ILOF.learn and ILOF.score_one,
applied to an already duplicate-filtered nonempty batch. -/
def pipeline (oracle : Oracle) (s : State) (Xf : List Obs) : Option Parts := do
  let ic ← initial_calculations s.n_neighbors (expandPre s Xf).dist0
    (calculate_dist s.n_neighbors s.warm_up oracle (expandPre s Xf).n_x
      (expandPre s Xf).n_new (expandPre s Xf).nn2)
  let r1 ← applyWrites ic.2.1 ic.2.2.1
    (writesNew (define_sets (expandPre s Xf).n_x (expandPre s Xf).n_new ic.2.2.2.2).1
      ic.2.2.2.1 ic.2.2.2.2) (expandPre s Xf).reach0
  let r2 ← applyWrites ic.2.1 ic.2.2.1
    (writesOther (define_sets (expandPre s Xf).n_x (expandPre s Xf).n_new ic.2.2.2.2).2.1
      ic.2.2.2.2) r1
  let lr ← calc_local_reach_dist
    (define_sets (expandPre s Xf).n_x (expandPre s Xf).n_new ic.2.2.2.2).2.2.1
    ic.2.2.2.1 r2 (expandPre s Xf).lr0
  let lf ← calc_lof
    (define_sets (expandPre s Xf).n_x (expandPre s Xf).n_new ic.2.2.2.2).2.2.2
    ic.2.2.2.1 lr (expandPre s Xf).lof0
  pure { n_x := (expandPre s Xf).n_x, n_new := (expandPre s Xf).n_new,
         nn2 := (expandPre s Xf).nn2, aug := ic.1,
         pruned := ic.2.1, kd := ic.2.2.1, neigh := ic.2.2.2.1, rev := ic.2.2.2.2,
         sNew := (define_sets (expandPre s Xf).n_x (expandPre s Xf).n_new ic.2.2.2.2).1,
         sRev := (define_sets (expandPre s Xf).n_x (expandPre s Xf).n_new ic.2.2.2.2).2.1,
         sLrd := (define_sets (expandPre s Xf).n_x (expandPre s Xf).n_new ic.2.2.2.2).2.2.1,
         sLof := (define_sets (expandPre s Xf).n_x (expandPre s Xf).n_new ic.2.2.2.2).2.2.2,
         reach := r2, lreach := lr, lofd := lf }

/-- ILOF.learn: filter duplicates; an all-duplicate batch is a no-op;
otherwise run the pipeline and commit every result, the distance table
being committed in its pruned form (the assignment of the return value of
initial_calculations to self.dist_dict). -/
def learn (oracle : Oracle) (s : State) (X : List Obs) : Option State :=
  let ce := check_equal X s.nn
  if ce.1.isEmpty then some s
  else
    (pipeline oracle s ce.1).map (fun P =>
      { s with
        nn := P.nn2, count := s.count + P.n_new, dist_dict := P.pruned,
        neighborhoods := P.neigh, rev_neighborhoods := P.rev, k_dist := P.kd,
        reach_dist := P.reach, local_reach := P.lreach, lof := P.lofd })

/-- ILOF.score_one: buffer until window_score observations are held; drop
duplicates; run the identical pipeline.  The Python code passes the
attribute dictionaries themselves into the pipeline, whose stages mutate
them in place, so everything except the pruning of the distance table is
committed exactly as in learn: the store and identity counter grow, and
neighborhoods, reverse neighborhoods, k-distances, reachability, lrd and
LOF keep the scored values; self.dist_dict keeps the augmented (unpruned)
rows because only the local name was rebound to the pruned copy.  The
second component is the returned value: none where Python returns None. -/
def score_one (oracle : Oracle) (s : State) (x : Obs) (w : ℤ) :
    Option (State × Option (List (Option ℚ))) :=
  let Xs := s.X_score ++ [x]
  if (Xs.length : ℤ) < w then some ({ s with X_score := Xs }, none)
  else
    let ce := check_equal Xs s.nn
    if ce.1.isEmpty then some ({ s with X_score := ce.1 }, none)
    else
      (pipeline oracle s ce.1).map (fun P =>
        ({ s with
           nn := P.nn2, count := s.count + P.n_new, dist_dict := P.aug,
           neighborhoods := P.neigh, rev_neighborhoods := P.rev, k_dist := P.kd,
           reach_dist := P.reach, local_reach := P.lreach, lof := P.lofd,
           X_score := [] },
         some ((List.range' P.n_x P.n_new).map (fun i => P.lofd.getD i none))))

/-- A trivial stand-in engine used for concrete runs below the warm-up
threshold, where the engine search is never consulted. -/
def oracle0 : Oracle := fun _ _ _ => []

/-- The pure effect of the inner append loop of buildRev. -/
def rowFold (rv : List (List ℕ)) (js : List ℕ) (p : ℕ) : List (List ℕ) :=
  js.foldl (fun r j => appendAt r j p) rv

/-- The pure effect of the whole buildRev double loop. -/
def revFold (neigh : List (List ℕ)) (rv : List (List ℕ)) (ps : List ℕ) : List (List ℕ) :=
  ps.foldl (fun r p => rowFold r (neigh.getD p []) p) rv

/-- The reverse-neighborhood duality invariant together with freedom from
duplicated reverse entries. -/
def RevDual (s : State) : Prop :=
  (∀ i j, j ∈ s.rev_neighborhoods.getD i [] ↔ i ∈ s.neighborhoods.getD j []) ∧
  (∀ i, (s.rev_neighborhoods.getD i []).Nodup)

/-- The inner rows of the committed distance table have duplicate-free key
lists (automatic for a Python dict). -/
def WFdist (s : State) : Prop := ∀ inner ∈ s.dist_dict, (keysOf inner).Nodup

/-- Neighborhood consistency: every stored neighbor distance is at most the
owner's k-distance. -/
def NeighConsistent (s : State) : Prop :=
  ∀ i j, j ∈ s.neighborhoods.getD i [] →
    ∃ d, alookup j (s.dist_dict.getD i []) = some d ∧
      (d : WithTop ℚ) ≤ s.k_dist.getD i ⊤

/-- The (j+1)-st smallest element of a list of rationals (0-indexed rank j,
counting multiplicity): the j-th entry of the ascending sort. -/
def nthSmallest (l : List ℚ) (j : ℕ) : ℚ := (isort l).getD j 0

/-- A default Parts record, used only to extract concrete pipeline runs. -/
def partsDefault : Parts :=
  ⟨0, 0, [], [], [], [], [], [], [], [], [], [], [], [], []⟩

/-- The committed-state facts maintained by learn that the lrd analysis
rests on: container lengths agree; distance rows have duplicate-free,
in-range keys and nonnegative values; the neighborhoods are exactly the
distance-row keys; and every neighbor has a recorded reachability
distance at least as large as its recorded distance. -/
def DistReachInv (s : State) : Prop :=
  s.dist_dict.length = s.nn.length ∧
  s.neighborhoods.length = s.nn.length ∧
  s.reach_dist.length = s.nn.length ∧
  (∀ inner ∈ s.dist_dict, (keysOf inner).Nodup) ∧
  (∀ inner ∈ s.dist_dict, ∀ p ∈ inner, 0 ≤ p.2 ∧ p.1 < s.nn.length) ∧
  (∀ i j, j ∈ keysOf (s.dist_dict.getD i []) ↔ j ∈ s.neighborhoods.getD i []) ∧
  (∀ i j, j ∈ s.neighborhoods.getD i [] →
    ∃ d r, alookup j (s.dist_dict.getD i []) = some d ∧
      alookup j (s.reach_dist.getD i []) = some r ∧ (d : WithTop ℚ) ≤ r)

/-- Every new-distance record touches at least one new identity and
carries a nonnegative distance (true of the brute-force strategy; an
injected engine is required by the spec to return nonnegative
distances). -/
def GoodNds (n_x : ℕ) (nds : List (ℕ × ℕ × ℚ)) : Prop :=
  ∀ t ∈ nds, (n_x ≤ t.1 ∨ n_x ≤ t.2.1) ∧ 0 ≤ t.2.2

end ILOF

namespace ILOF

/-! ### Basic lemmas about the association-list and set operations -/

theorem alookup_upsert_self (l : List (ℕ × α)) (k : ℕ) (v : α) :
    alookup k (upsert l k v) = some v := by
  induction l with
  | nil => simp [upsert, alookup]
  | cons p t ih =>
    obtain ⟨k2, v2⟩ := p
    by_cases h : k2 = k
    · subst h; simp [upsert, alookup]
    · simp only [upsert, if_neg h, alookup]
      rw [if_neg (fun hk => h hk.symm)]
      exact ih

theorem alookup_upsert_ne (l : List (ℕ × α)) (k k2 : ℕ) (v : α) (h : k ≠ k2) :
    alookup k (upsert l k2 v) = alookup k l := by
  induction l with
  | nil => simp [upsert, alookup, if_neg h]
  | cons p t ih =>
    obtain ⟨k3, v3⟩ := p
    by_cases h3 : k3 = k2
    · subst h3
      simp only [upsert, if_pos rfl, alookup, if_neg h]
    · simp only [upsert, if_neg h3, alookup]
      by_cases hk : k = k3
      · simp [if_pos hk]
      · simp only [if_neg hk]; exact ih

theorem mem_keys_upsert (l : List (ℕ × α)) (k a : ℕ) (v : α) :
    a ∈ keysOf (upsert l k v) ↔ a = k ∨ a ∈ keysOf l := by
  induction l with
  | nil => simp [upsert, keysOf]
  | cons p t ih =>
    obtain ⟨k2, v2⟩ := p
    by_cases h : k2 = k
    · subst h; simp [upsert, keysOf]
    · simp only [upsert, if_neg h, keysOf, List.map_cons, List.mem_cons] at *
      constructor
      · rintro (h1 | h1)
        · exact Or.inr (Or.inl h1)
        · rcases ih.1 h1 with h2 | h2
          · exact Or.inl h2
          · exact Or.inr (Or.inr h2)
      · rintro (h1 | h1 | h1)
        · exact Or.inr (ih.2 (Or.inl h1))
        · exact Or.inl h1
        · exact Or.inr (ih.2 (Or.inr h1))

theorem keys_nodup_upsert (l : List (ℕ × α)) (k : ℕ) (v : α)
    (h : (keysOf l).Nodup) : (keysOf (upsert l k v)).Nodup := by
  induction l with
  | nil => simp [upsert, keysOf]
  | cons p t ih =>
    obtain ⟨k2, v2⟩ := p
    simp only [keysOf, List.map_cons, List.nodup_cons] at h
    by_cases hk : k2 = k
    · subst hk
      simpa [upsert, keysOf] using h
    · simp only [upsert, if_neg hk, keysOf, List.map_cons, List.nodup_cons]
      refine ⟨fun hmem => ?_, ih h.2⟩
      rcases (mem_keys_upsert t k k2 v).1 hmem with h2 | h2
      · exact hk h2
      · exact h.1 h2

theorem alookup_isSome_of_mem_keys (l : List (ℕ × α)) (k : ℕ)
    (h : k ∈ keysOf l) : ∃ v, alookup k l = some v := by
  induction l with
  | nil => simp [keysOf] at h
  | cons p t ih =>
    obtain ⟨k2, v2⟩ := p
    by_cases hk : k = k2
    · exact ⟨v2, by simp [alookup, if_pos hk]⟩
    · simp only [keysOf, List.map_cons, List.mem_cons] at h
      rcases h with h | h
      · exact absurd h hk
      · simpa [alookup, if_neg hk] using ih h

theorem mem_keys_of_alookup (l : List (ℕ × α)) (k : ℕ) (v : α)
    (h : alookup k l = some v) : k ∈ keysOf l := by
  induction l with
  | nil => simp [alookup] at h
  | cons p t ih =>
    obtain ⟨k2, v2⟩ := p
    by_cases hk : k = k2
    · simp [keysOf, hk]
    · simp only [alookup, if_neg hk] at h
      simp only [keysOf, List.map_cons, List.mem_cons]
      exact Or.inr (by simpa [keysOf] using ih h)

theorem alookup_mem_entries (l : List (ℕ × α)) (k : ℕ) (v : α)
    (h : alookup k l = some v) : (k, v) ∈ l := by
  induction l with
  | nil => simp [alookup] at h
  | cons p t ih =>
    obtain ⟨k2, v2⟩ := p
    by_cases hk : k = k2
    · subst hk
      obtain rfl : v2 = v := by simpa [alookup] using h
      exact List.mem_cons_self _ _
    · simp only [alookup, if_neg hk] at h
      exact List.mem_cons_of_mem _ (ih h)

theorem mem_sinsert (x y : ℕ) (l : List ℕ) :
    x ∈ sinsert y l ↔ x = y ∨ x ∈ l := by
  induction l with
  | nil => simp [sinsert]
  | cons z t ih =>
    by_cases h1 : y < z
    · simp only [sinsert, if_pos h1, List.mem_cons]
    · by_cases h2 : y = z
      · subst h2
        simp [sinsert, if_neg h1, List.mem_cons]
      · simp only [sinsert, if_neg h1, if_neg h2, List.mem_cons, ih]
        tauto

theorem mem_setUnion (a b : List ℕ) (x : ℕ) :
    x ∈ setUnion a b ↔ x ∈ a ∨ x ∈ b := by
  induction b generalizing a with
  | nil => simp [setUnion]
  | cons y t ih =>
    simp only [setUnion, List.foldl_cons] at *
    rw [ih (sinsert y a), mem_sinsert]
    simp [List.mem_cons]
    tauto

theorem mem_foldl_setUnion (l : List ℕ) (f : ℕ → List ℕ) (a : List ℕ) (x : ℕ) :
    x ∈ l.foldl (fun acc i => setUnion acc (f i)) a ↔ x ∈ a ∨ ∃ i ∈ l, x ∈ f i := by
  induction l generalizing a with
  | nil => simp
  | cons y t ih =>
    simp only [List.foldl_cons]
    rw [ih (setUnion a (f y)), mem_setUnion]
    constructor
    · rintro ((h | h) | ⟨i, hi, hx⟩)
      · exact Or.inl h
      · exact Or.inr ⟨y, List.mem_cons_self _ _, h⟩
      · exact Or.inr ⟨i, List.mem_cons_of_mem _ hi, hx⟩
    · rintro (h | ⟨i, hi, hx⟩)
      · exact Or.inl (Or.inl h)
      · rcases List.mem_cons.1 hi with h1 | h1
        · subst h1; exact Or.inl (Or.inr hx)
        · exact Or.inr ⟨i, h1, hx⟩

end ILOF

namespace ILOF

/-! ### C3: the affected sets computed by define_sets -/

/-- C3: for every call of define_sets with newly inserted identity range
[n_x, n_x + n_new), the computed sets are exactly the specified closure:
the reverse-neighbor set is the union of the reverse neighborhoods of the
new points; the lrd-update set is that set, united with the reverse
neighborhoods of its members, united with the new points; the LOF-update
set is the lrd-update set united with the reverse neighborhoods of its
members — no deeper and no shallower a traversal. -/
theorem C3_affected_sets_exact (n_x n_new : ℕ) (rev : List (List ℕ)) (x : ℕ) :
    (x ∈ (define_sets n_x n_new rev).1 ↔ n_x ≤ x ∧ x < n_x + n_new) ∧
    (x ∈ (define_sets n_x n_new rev).2.1 ↔
      ∃ i ∈ (define_sets n_x n_new rev).1, x ∈ rev.getD i []) ∧
    (x ∈ (define_sets n_x n_new rev).2.2.1 ↔
      (x ∈ (define_sets n_x n_new rev).2.1 ∨
        (∃ j ∈ (define_sets n_x n_new rev).2.1, x ∈ rev.getD j []) ∨
        x ∈ (define_sets n_x n_new rev).1)) ∧
    (x ∈ (define_sets n_x n_new rev).2.2.2 ↔
      (x ∈ (define_sets n_x n_new rev).2.2.1 ∨
        ∃ m ∈ (define_sets n_x n_new rev).2.2.1, x ∈ rev.getD m [])) := by
  simp only [define_sets]
  refine ⟨?_, ?_, ?_, ?_⟩
  · exact List.mem_range'_1
  · rw [mem_foldl_setUnion]
    simp [List.mem_range'_1]
  · rw [mem_setUnion, mem_foldl_setUnion]
    constructor
    · rintro ((h | ⟨j, hj, hx⟩) | h)
      · exact Or.inl h
      · exact Or.inr (Or.inl ⟨j, hj, hx⟩)
      · exact Or.inr (Or.inr h)
    · rintro (h | ⟨j, hj, hx⟩ | h)
      · exact Or.inl (Or.inl h)
      · exact Or.inl (Or.inr ⟨j, hj, hx⟩)
      · exact Or.inr h
  · rw [mem_foldl_setUnion]

/-! ### C8: the constructor performs no configuration validation -/

/-- C8 counterexample: the claim says construction with n_neighbors ≤ 0 or
warm_up ≤ 0 raises a configuration error rather than producing a usable
object.  In the code __init__ contains no validation at all: with
n_neighbors = 0 and warm_up = 10 the constructor returns an ordinary
detector state, and that object is usable — learn on a two-point batch
runs the whole pipeline successfully. -/
theorem C8_counterexample :
    (init 0 10).n_neighbors ≤ 0 ∧
      (learn oracle0 (init 0 10) [[0], [1]]).isSome = true := by
  constructor
  · decide
  · with_unfolding_all rfl

/-- C8 amended: constructing the detector with n_neighbors ≤ 0 or
warm_up ≤ 0 does not fail: the constructor performs no configuration
validation and returns the ordinary initial state with those parameters
stored. -/
theorem C8_amended_no_validation (k wu : ℤ) (_h : k ≤ 0 ∨ wu ≤ 0) :
    init k wu = ⟨k, wu, true, [], 0, [], [], [], [], [], [], [], [], []⟩ := rfl

/-- Witness for C8: the hypothesis holds at n_neighbors = 0, warm_up = 10
and the amended conclusion follows there. -/
theorem C8_witness :
    ((0 : ℤ) ≤ 0 ∨ (10 : ℤ) ≤ 0) ∧
      init 0 10 = ⟨0, 10, true, [], 0, [], [], [], [], [], [], [], [], []⟩ :=
  ⟨Or.inl le_rfl, C8_amended_no_validation 0 10 (Or.inl le_rfl)⟩

end ILOF

namespace ILOF

/-! ### Characterization of the reverse-neighborhood construction -/

theorem appendAt_length (rv : List (List ℕ)) (j p : ℕ) :
    (appendAt rv j p).length = rv.length := by
  simp [appendAt]

theorem getD_appendAt_self (rv : List (List ℕ)) (j p : ℕ) (h : j < rv.length) :
    (appendAt rv j p).getD j [] = rv.getD j [] ++ [p] := by
  simp [appendAt, List.getD_eq_getElem?_getD, List.getElem?_set, h]

theorem getD_appendAt_ne (rv : List (List ℕ)) (i j p : ℕ) (h : i ≠ j) :
    (appendAt rv j p).getD i [] = rv.getD i [] := by
  simp [appendAt, List.getD_eq_getElem?_getD, List.getElem?_set, Ne.symm h]

theorem rowFold_length (js : List ℕ) (rv : List (List ℕ)) (p : ℕ) :
    (rowFold rv js p).length = rv.length := by
  induction js generalizing rv with
  | nil => rfl
  | cons j t ih =>
    show (rowFold (appendAt rv j p) t p).length = rv.length
    rw [ih, appendAt_length]

theorem getD_rowFold (js : List ℕ) (rv : List (List ℕ)) (p i : ℕ)
    (hb : ∀ j ∈ js, j < rv.length) :
    (rowFold rv js p).getD i [] = rv.getD i [] ++ List.replicate (js.count i) p := by
  induction js generalizing rv with
  | nil => simp [rowFold]
  | cons j t ih =>
    have hj : j < rv.length := hb j (List.mem_cons_self _ _)
    have hb2 : ∀ x ∈ t, x < (appendAt rv j p).length := by
      rw [appendAt_length]
      exact fun x hx => hb x (List.mem_cons_of_mem _ hx)
    show (rowFold (appendAt rv j p) t p).getD i [] = _
    rw [ih _ hb2]
    by_cases hij : i = j
    · subst hij
      rw [getD_appendAt_self _ _ _ hj, List.count_cons_self, List.replicate_succ,
        List.append_assoc, List.singleton_append]
    · rw [getD_appendAt_ne _ _ _ _ hij, List.count_cons_of_ne hij]

theorem rowFoldM_eq_some_iff (js : List ℕ) (rv rv2 : List (List ℕ)) (p : ℕ) :
    (js.foldlM (fun r2 j => if j < r2.length then some (appendAt r2 j p) else none) rv)
        = some rv2 ↔
      (∀ j ∈ js, j < rv.length) ∧ rv2 = rowFold rv js p := by
  induction js generalizing rv with
  | nil =>
    simp only [List.foldlM_nil, Option.pure_def, Option.some.injEq, rowFold, List.foldl_nil]
    constructor
    · exact fun h => ⟨by simp, h.symm⟩
    · exact fun h => h.2.symm
  | cons j t ih =>
    simp only [List.foldlM_cons]
    by_cases hj : j < rv.length
    · rw [if_pos hj]
      simp only [Option.bind_eq_bind, Option.some_bind]
      rw [ih (appendAt rv j p)]
      constructor
      · rintro ⟨h1, h2⟩
        refine ⟨?_, h2⟩
        intro x hx
        rcases List.mem_cons.1 hx with h | h
        · exact h ▸ hj
        · have := h1 x h
          rwa [appendAt_length] at this
      · rintro ⟨h1, h2⟩
        exact ⟨fun x hx => by rw [appendAt_length]; exact h1 x (List.mem_cons_of_mem _ hx), h2⟩
    · rw [if_neg hj]
      simp only [Option.bind_eq_bind, Option.none_bind]
      constructor
      · intro h; exact absurd h (by simp)
      · rintro ⟨h1, _⟩
        exact absurd (h1 j (List.mem_cons_self _ _)) hj

theorem revFold_length (neigh : List (List ℕ)) (ps : List ℕ) (rv : List (List ℕ)) :
    (revFold neigh rv ps).length = rv.length := by
  induction ps generalizing rv with
  | nil => rfl
  | cons p t ih =>
    show (revFold neigh (rowFold rv (neigh.getD p []) p) t).length = rv.length
    rw [ih, rowFold_length]

theorem getD_revFold (neigh : List (List ℕ)) (ps : List ℕ) (rv : List (List ℕ)) (i : ℕ)
    (hb : ∀ p ∈ ps, ∀ j ∈ neigh.getD p [], j < rv.length) :
    (revFold neigh rv ps).getD i [] =
      rv.getD i [] ++ ps.flatMap (fun p => List.replicate ((neigh.getD p []).count i) p) := by
  induction ps generalizing rv with
  | nil => simp [revFold]
  | cons p t ih =>
    have hb1 : ∀ j ∈ neigh.getD p [], j < rv.length := hb p (List.mem_cons_self _ _)
    have hb2 : ∀ q ∈ t, ∀ j ∈ neigh.getD q [], j < (rowFold rv (neigh.getD p []) p).length := by
      rw [rowFold_length]
      exact fun q hq => hb q (List.mem_cons_of_mem _ hq)
    show (revFold neigh (rowFold rv (neigh.getD p []) p) t).getD i [] = _
    rw [ih _ hb2, getD_rowFold _ _ _ _ hb1, List.flatMap_cons, List.append_assoc]

theorem revFoldM_eq_some_iff (neigh : List (List ℕ)) (ps : List ℕ)
    (rv rv2 : List (List ℕ)) :
    (ps.foldlM
        (fun r p =>
          (neigh.getD p []).foldlM
            (fun r2 j => if j < r2.length then some (appendAt r2 j p) else none) r)
        rv) = some rv2 ↔
      (∀ p ∈ ps, ∀ j ∈ neigh.getD p [], j < rv.length) ∧ rv2 = revFold neigh rv ps := by
  induction ps generalizing rv with
  | nil =>
    simp only [List.foldlM_nil, Option.pure_def, Option.some.injEq, revFold, List.foldl_nil]
    constructor
    · exact fun h => ⟨by simp, h.symm⟩
    · exact fun h => h.2.symm
  | cons p t ih =>
    simp only [List.foldlM_cons]
    by_cases hp : ∀ j ∈ neigh.getD p [], j < rv.length
    · rw [(rowFoldM_eq_some_iff (neigh.getD p []) rv (rowFold rv (neigh.getD p []) p) p).2
        ⟨hp, rfl⟩]
      simp only [Option.bind_eq_bind, Option.some_bind]
      rw [ih (rowFold rv (neigh.getD p []) p)]
      constructor
      · rintro ⟨h1, h2⟩
        refine ⟨?_, h2⟩
        intro q hq
        rcases List.mem_cons.1 hq with h | h
        · exact h ▸ hp
        · have := h1 q h
          rwa [rowFold_length] at this
      · rintro ⟨h1, h2⟩
        refine ⟨fun q hq => ?_, h2⟩
        rw [rowFold_length]
        exact h1 q (List.mem_cons_of_mem _ hq)
    · cases hi : (neigh.getD p []).foldlM
          (fun r2 j => if j < r2.length then some (appendAt r2 j p) else none) rv with
      | none =>
        simp only [hi, Option.bind_eq_bind, Option.none_bind]
        constructor
        · intro h; exact absurd h (by simp)
        · rintro ⟨h1, _⟩
          exact absurd (fun j hj => h1 p (List.mem_cons_self _ _) j hj) hp
      | some r =>
        exact absurd ((rowFoldM_eq_some_iff _ _ _ _).1 hi).1 hp

theorem buildRev_eq_some_iff (n : ℕ) (neigh : List (List ℕ)) (rv2 : List (List ℕ)) :
    buildRev n neigh = some rv2 ↔
      (∀ p ∈ List.range n, ∀ j ∈ neigh.getD p [], j < n) ∧
        rv2 = revFold neigh (List.replicate n []) (List.range n) := by
  have := revFoldM_eq_some_iff neigh (List.range n) (List.replicate n []) rv2
  rw [List.length_replicate] at this
  exact this

theorem mem_buildRev (n : ℕ) (neigh : List (List ℕ)) (rv2 : List (List ℕ))
    (h : buildRev n neigh = some rv2) (i j : ℕ) :
    j ∈ rv2.getD i [] ↔ j < n ∧ i ∈ neigh.getD j [] := by
  obtain ⟨hb, rfl⟩ := (buildRev_eq_some_iff n neigh rv2).1 h
  rw [getD_revFold neigh (List.range n) (List.replicate n []) i
    (by rw [List.length_replicate]; exact hb)]
  have hrep : (List.replicate n ([] : List ℕ)).getD i [] = [] := by
    by_cases hi : i < n
    · simp [List.getD_eq_getElem?_getD, List.getElem?_replicate, hi]
    · rw [List.getD_eq_getElem?_getD, List.getElem?_eq_none]
      · rfl
      · rw [List.length_replicate]; omega
  rw [hrep, List.nil_append, List.mem_flatMap]
  constructor
  · rintro ⟨p, hp, hmem⟩
    rw [List.eq_of_mem_replicate hmem]
    rw [List.mem_range] at hp
    refine ⟨hp, ?_⟩
    have hpos : 0 < (neigh.getD p []).count i := by
      rcases Nat.eq_zero_or_pos ((neigh.getD p []).count i) with h2 | h2
      · rw [h2] at hmem; simp at hmem
      · exact h2
    exact List.count_pos_iff.1 hpos
  · rintro ⟨hj, hmem⟩
    refine ⟨j, List.mem_range.2 hj, ?_⟩
    rw [List.mem_replicate]
    exact ⟨Nat.pos_iff_ne_zero.1 (List.count_pos_iff.2 hmem), rfl⟩

theorem nodup_flatMap_replicate (ps : List ℕ) (c : ℕ → ℕ) (hps : ps.Nodup)
    (hc : ∀ p, c p ≤ 1) :
    (ps.flatMap (fun p => List.replicate (c p) p)).Nodup := by
  induction ps with
  | nil => simp
  | cons p t ih =>
    rw [List.flatMap_cons, List.nodup_append]
    rw [List.nodup_cons] at hps
    refine ⟨?_, ih hps.2, ?_⟩
    · have := hc p
      interval_cases h2 : c p
      · simp
      · simp
    · intro x hx1 hx2
      rw [List.mem_flatMap] at hx2
      obtain ⟨q, hq, hmem⟩ := hx2
      have h1 : x = p := List.eq_of_mem_replicate hx1
      have h2 : x = q := List.eq_of_mem_replicate hmem
      rw [h1.symm.trans h2] at hps
      exact hps.1 hq

theorem nodup_buildRev (n : ℕ) (neigh : List (List ℕ)) (rv2 : List (List ℕ))
    (h : buildRev n neigh = some rv2) (hnd : ∀ i, (neigh.getD i []).Nodup) (i : ℕ) :
    (rv2.getD i []).Nodup := by
  obtain ⟨hb, rfl⟩ := (buildRev_eq_some_iff n neigh rv2).1 h
  rw [getD_revFold neigh (List.range n) (List.replicate n []) i
    (by rw [List.length_replicate]; exact hb)]
  have hrep : (List.replicate n ([] : List ℕ)).getD i [] = [] := by
    by_cases hi : i < n
    · simp [List.getD_eq_getElem?_getD, List.getElem?_replicate, hi]
    · rw [List.getD_eq_getElem?_getD, List.getElem?_eq_none]
      · rfl
      · rw [List.length_replicate]; omega
  rw [hrep, List.nil_append]
  exact nodup_flatMap_replicate _ _ (List.nodup_range n)
    (fun p => List.nodup_iff_count_le_one.1 (hnd p) i)

end ILOF

namespace ILOF

/-! ### Inversion of the Option-valued stages -/

theorem mapM_eq_some {α β : Type} (f : α → Option β) (l : List α) (r : List β)
    (h : l.mapM f = some r) :
    r.length = l.length ∧ ∀ i d d2, i < l.length → f (l.getD i d) = some (r.getD i d2) := by
  rw [← List.mapM'_eq_mapM] at h
  induction l generalizing r with
  | nil =>
    simp only [List.mapM', Option.pure_def, Option.some.injEq] at h
    subst h
    simp
  | cons a t ih =>
    simp only [List.mapM'] at h
    cases hfa : f a with
    | none => rw [hfa] at h; simp at h
    | some b =>
      rw [hfa] at h
      simp only [Option.bind_eq_bind, Option.some_bind] at h
      cases hmt : t.mapM' f with
      | none => rw [hmt] at h; simp at h
      | some bs =>
        rw [hmt] at h
        simp only [Option.bind_eq_bind, Option.some_bind, Option.pure_def,
          Option.some.injEq] at h
        subst h
        obtain ⟨hlen, hpt⟩ := ih bs hmt
        refine ⟨by simp [hlen], ?_⟩
        intro i d d2 hi
        cases i with
        | zero => simpa using hfa
        | succ m =>
          simp only [List.getD_cons_succ]
          exact hpt m d d2 (by simpa using hi)

theorem getD_mem_or_default {α : Type} (l : List α) (i : ℕ) (d : α) :
    l.getD i d ∈ l ∨ l.getD i d = d := by
  by_cases h : i < l.length
  · left
    rw [List.getD_eq_getElem?_getD, List.getElem?_eq_getElem h]
    exact List.getElem_mem h
  · right
    rw [List.getD_eq_getElem?_getD, List.getElem?_eq_none (by omega)]
    rfl

theorem getD_map_keysOf (l : List (List (ℕ × ℚ))) (i : ℕ) :
    (l.map keysOf).getD i [] = keysOf (l.getD i []) := by
  induction l generalizing i with
  | nil => simp [keysOf]
  | cons a t ih =>
    cases i with
    | zero => simp
    | succ m => simpa using ih m

theorem pruneDist_length (aug : List (List (ℕ × ℚ))) (kd : List (WithTop ℚ))
    (h : kd.length = aug.length) : (pruneDist aug kd).length = aug.length := by
  simp [pruneDist, h]

theorem getD_pruneDist (aug : List (List (ℕ × ℚ))) (kd : List (WithTop ℚ))
    (h : kd.length = aug.length) (i : ℕ) :
    (pruneDist aug kd).getD i [] =
      (aug.getD i []).filter (fun e => decide ((e.2 : WithTop ℚ) ≤ kd.getD i ⊤)) := by
  induction aug generalizing kd i with
  | nil =>
    have : kd = [] := List.length_eq_zero.1 (by simpa using h)
    subst this
    simp [pruneDist]
  | cons a t ih =>
    cases kd with
    | nil => simp at h
    | cons k kt =>
      cases i with
      | zero => simp [pruneDist]
      | succ m =>
        have h2 : kt.length = t.length := by simpa using h
        simpa [pruneDist] using ih kt h2 m

theorem initial_calculations_eq_some (k : ℤ) (dist0 : List (List (ℕ × ℚ)))
    (nds : List (ℕ × ℕ × ℚ)) (aug pruned : List (List (ℕ × ℚ))) (kd : List (WithTop ℚ))
    (neigh rev : List (List ℕ))
    (h : initial_calculations k dist0 nds = some (aug, pruned, kd, neigh, rev)) :
    augment dist0 nds = some aug ∧ aug.mapM (computeKdist k) = some kd ∧
      pruned = pruneDist aug kd ∧ neigh = pruned.map keysOf ∧
      buildRev aug.length neigh = some rev := by
  unfold initial_calculations at h
  cases haug : augment dist0 nds with
  | none => rw [haug] at h; simp at h
  | some a =>
    rw [haug] at h
    simp only [Option.bind_eq_bind, Option.some_bind] at h
    cases hkd : a.mapM (computeKdist k) with
    | none => rw [hkd] at h; simp at h
    | some kds =>
      rw [hkd] at h
      simp only [Option.bind_eq_bind, Option.some_bind] at h
      cases hrev : buildRev a.length ((pruneDist a kds).map keysOf) with
      | none => rw [hrev] at h; simp at h
      | some rv =>
        rw [hrev] at h
        simp only [Option.bind_eq_bind, Option.some_bind, Option.pure_def,
          Option.some.injEq, Prod.mk.injEq] at h
        obtain ⟨h1, h2, h3, h4, h5⟩ := h
        subst h1; subst h2; subst h3; subst h4; subst h5
        exact ⟨rfl, hkd, rfl, rfl, hrev⟩

theorem pipeline_eq_some (o : Oracle) (s : State) (Xf : List Obs) (P : Parts)
    (h : pipeline o s Xf = some P) :
    ∃ r1,
      initial_calculations s.n_neighbors (expandPre s Xf).dist0
          (calculate_dist s.n_neighbors s.warm_up o (expandPre s Xf).n_x
            (expandPre s Xf).n_new (expandPre s Xf).nn2) =
        some (P.aug, P.pruned, P.kd, P.neigh, P.rev) ∧
      P.sNew = (define_sets (expandPre s Xf).n_x (expandPre s Xf).n_new P.rev).1 ∧
      P.sRev = (define_sets (expandPre s Xf).n_x (expandPre s Xf).n_new P.rev).2.1 ∧
      P.sLrd = (define_sets (expandPre s Xf).n_x (expandPre s Xf).n_new P.rev).2.2.1 ∧
      P.sLof = (define_sets (expandPre s Xf).n_x (expandPre s Xf).n_new P.rev).2.2.2 ∧
      applyWrites P.pruned P.kd (writesNew P.sNew P.neigh P.rev) (expandPre s Xf).reach0 =
        some r1 ∧
      applyWrites P.pruned P.kd (writesOther P.sRev P.rev) r1 = some P.reach ∧
      calc_local_reach_dist P.sLrd P.neigh P.reach (expandPre s Xf).lr0 = some P.lreach ∧
      calc_lof P.sLof P.neigh P.lreach (expandPre s Xf).lof0 = some P.lofd ∧
      P.n_x = (expandPre s Xf).n_x ∧ P.n_new = (expandPre s Xf).n_new ∧
      P.nn2 = (expandPre s Xf).nn2 := by
  unfold pipeline at h
  cases hic : initial_calculations s.n_neighbors (expandPre s Xf).dist0
      (calculate_dist s.n_neighbors s.warm_up o (expandPre s Xf).n_x
        (expandPre s Xf).n_new (expandPre s Xf).nn2) with
  | none => rw [hic] at h; simp at h
  | some ic =>
    rw [hic] at h
    simp only [Option.bind_eq_bind, Option.some_bind] at h
    cases hr1 : applyWrites ic.2.1 ic.2.2.1
        (writesNew (define_sets (expandPre s Xf).n_x (expandPre s Xf).n_new ic.2.2.2.2).1
          ic.2.2.2.1 ic.2.2.2.2) (expandPre s Xf).reach0 with
    | none => rw [hr1] at h; simp at h
    | some r1 =>
      rw [hr1] at h
      simp only [Option.bind_eq_bind, Option.some_bind] at h
      cases hr2 : applyWrites ic.2.1 ic.2.2.1
          (writesOther
            (define_sets (expandPre s Xf).n_x (expandPre s Xf).n_new ic.2.2.2.2).2.1
            ic.2.2.2.2) r1 with
      | none => rw [hr2] at h; simp at h
      | some r2 =>
        rw [hr2] at h
        simp only [Option.bind_eq_bind, Option.some_bind] at h
        cases hlr : calc_local_reach_dist
            (define_sets (expandPre s Xf).n_x (expandPre s Xf).n_new ic.2.2.2.2).2.2.1
            ic.2.2.2.1 r2 (expandPre s Xf).lr0 with
        | none => rw [hlr] at h; simp at h
        | some lr =>
          rw [hlr] at h
          simp only [Option.bind_eq_bind, Option.some_bind] at h
          cases hlf : calc_lof
              (define_sets (expandPre s Xf).n_x (expandPre s Xf).n_new ic.2.2.2.2).2.2.2
              ic.2.2.2.1 lr (expandPre s Xf).lof0 with
          | none => rw [hlf] at h; simp at h
          | some lf =>
            rw [hlf] at h
            simp only [Option.bind_eq_bind, Option.some_bind, Option.pure_def,
              Option.some.injEq] at h
            subst h
            exact ⟨r1, rfl, rfl, rfl, rfl, rfl, hr1, hr2, hlr, hlf, rfl, rfl, rfl⟩

theorem learn_eq_some_pipeline (o : Oracle) (s : State) (X : List Obs) (s' : State)
    (h : learn o s X = some s') (hne : (check_equal X s.nn).1 ≠ []) :
    ∃ P, pipeline o s (check_equal X s.nn).1 = some P ∧
      s' = { s with
        nn := P.nn2, count := s.count + P.n_new, dist_dict := P.pruned,
        neighborhoods := P.neigh, rev_neighborhoods := P.rev, k_dist := P.kd,
        reach_dist := P.reach, local_reach := P.lreach, lof := P.lofd } := by
  unfold learn at h
  rw [if_neg (by simpa [List.isEmpty_iff] using hne)] at h
  cases hp : pipeline o s (check_equal X s.nn).1 with
  | none => rw [hp] at h; simp at h
  | some P =>
    rw [hp] at h
    simp only [Option.map_some', Option.some.injEq] at h
    exact ⟨P, rfl, h.symm⟩

theorem learn_noop (o : Oracle) (s : State) (X : List Obs)
    (he : (check_equal X s.nn).1 = []) : learn o s X = some s := by
  unfold learn
  rw [if_pos (by simp [he])]

end ILOF

namespace ILOF

/-! ### Preservation lemmas for the distance-table augmentation -/

theorem getD_of_le {α : Type} (l : List α) (i : ℕ) (d : α) (h : l.length ≤ i) :
    l.getD i d = d := by
  rw [List.getD_eq_getElem?_getD, List.getElem?_eq_none h]
  rfl

theorem addDist_length (dd dd2 : List (List (ℕ × ℚ))) (t : ℕ × ℕ × ℚ)
    (h : addDist dd t = some dd2) : dd2.length = dd.length := by
  unfold addDist at h
  split at h
  · simp only [Option.some.injEq] at h
    subst h
    simp
  · simp at h

theorem augment_length (ts : List (ℕ × ℕ × ℚ)) (dd aug : List (List (ℕ × ℚ)))
    (h : augment dd ts = some aug) : aug.length = dd.length := by
  induction ts generalizing dd with
  | nil =>
    simp only [augment, List.foldlM_nil, Option.pure_def, Option.some.injEq] at h
    subst h
    rfl
  | cons t ts ih =>
    simp only [augment, List.foldlM_cons] at h
    cases had : addDist dd t with
    | none => rw [had] at h; simp at h
    | some dd2 =>
      rw [had] at h
      simp only [Option.bind_eq_bind, Option.some_bind] at h
      rw [ih dd2 h, addDist_length dd dd2 t had]

theorem addDist_keys_nodup (dd dd2 : List (List (ℕ × ℚ))) (t : ℕ × ℕ × ℚ)
    (h : addDist dd t = some dd2)
    (hnd : ∀ inner ∈ dd, (keysOf inner).Nodup) :
    ∀ inner ∈ dd2, (keysOf inner).Nodup := by
  have hrow : ∀ (i : ℕ), (keysOf (dd.getD i [])).Nodup := by
    intro i
    rcases getD_mem_or_default dd i [] with hm | he
    · exact hnd _ hm
    · rw [he]; simp [keysOf]
  unfold addDist at h
  split at h
  · simp only [Option.some.injEq] at h
    subst h
    intro inner hin
    rcases List.mem_or_eq_of_mem_set hin with hin2 | rfl
    · rcases List.mem_or_eq_of_mem_set hin2 with hin3 | rfl
      · exact hnd _ hin3
      · exact keys_nodup_upsert _ _ _ (hrow t.1)
    · apply keys_nodup_upsert
      rcases getD_mem_or_default (dd.set t.1 (upsert (dd.getD t.1 []) t.2.1 t.2.2))
          t.2.1 [] with hm | he
      · rcases List.mem_or_eq_of_mem_set hm with hin3 | heq
        · exact hnd _ hin3
        · rw [heq]
          exact keys_nodup_upsert _ _ _ (hrow t.1)
      · rw [he]; simp [keysOf]
  · simp at h

theorem augment_keys_nodup (ts : List (ℕ × ℕ × ℚ)) (dd aug : List (List (ℕ × ℚ)))
    (h : augment dd ts = some aug)
    (hnd : ∀ inner ∈ dd, (keysOf inner).Nodup) :
    ∀ inner ∈ aug, (keysOf inner).Nodup := by
  induction ts generalizing dd with
  | nil =>
    simp only [augment, List.foldlM_nil, Option.pure_def, Option.some.injEq] at h
    subst h
    exact hnd
  | cons t ts ih =>
    simp only [augment, List.foldlM_cons] at h
    cases had : addDist dd t with
    | none => rw [had] at h; simp at h
    | some dd2 =>
      rw [had] at h
      simp only [Option.bind_eq_bind, Option.some_bind] at h
      exact ih dd2 h (addDist_keys_nodup dd dd2 t had hnd)

/-! ### The committed-state invariants named by the spec -/

/-- After a successful pipeline run the neighborhoods are the key lists of
the pruned distance rows, whose length matches the k-distance table. -/
theorem pipeline_shapes (o : Oracle) (s : State) (Xf : List Obs) (P : Parts)
    (h : pipeline o s Xf = some P) :
    P.kd.length = P.aug.length ∧ P.pruned = pruneDist P.aug P.kd ∧
      P.neigh = P.pruned.map keysOf ∧ buildRev P.aug.length P.neigh = some P.rev ∧
      augment (expandPre s Xf).dist0
        (calculate_dist s.n_neighbors s.warm_up o (expandPre s Xf).n_x
          (expandPre s Xf).n_new (expandPre s Xf).nn2) = some P.aug := by
  obtain ⟨r1, hic, -, -, -, -, -, -, -, -, -, -, -⟩ := pipeline_eq_some o s Xf P h
  obtain ⟨haug, hkd, hpr, hng, hrev⟩ :=
    initial_calculations_eq_some _ _ _ _ _ _ _ _ hic
  exact ⟨(mapM_eq_some _ _ _ hkd).1, hpr, hng, hrev, haug⟩

/-- C2 helper: duality and nodup of the freshly rebuilt neighborhoods. -/
theorem rebuilt_rev_dual (o : Oracle) (s : State) (Xf : List Obs) (P : Parts)
    (h : pipeline o s Xf = some P) (hwf : WFdist s) :
    (∀ i j, j ∈ P.rev.getD i [] ↔ i ∈ P.neigh.getD j []) ∧
      (∀ i, (P.rev.getD i []).Nodup) := by
  obtain ⟨hlen, hpr, hng, hrev, haug⟩ := pipeline_shapes o s Xf P h
  have hnlen : P.neigh.length = P.aug.length := by
    rw [hng, List.length_map, hpr, pruneDist_length _ _ hlen]
  have hd0 : ∀ inner ∈ (expandPre s Xf).dist0, (keysOf inner).Nodup := by
    intro inner hin
    rcases List.mem_append.1 hin with hin | hin
    · exact hwf _ hin
    · rw [List.eq_of_mem_replicate hin]
      simp [keysOf]
  have haugnd : ∀ inner ∈ P.aug, (keysOf inner).Nodup :=
    augment_keys_nodup _ _ _ haug hd0
  have hnnd : ∀ i, (P.neigh.getD i []).Nodup := by
    intro i
    rw [hng, getD_map_keysOf, hpr, getD_pruneDist _ _ hlen]
    have hbase : (keysOf (P.aug.getD i [])).Nodup := by
      rcases getD_mem_or_default P.aug i [] with hm | he
      · exact haugnd _ hm
      · rw [he]; simp [keysOf]
    exact List.Nodup.sublist (List.Sublist.map Prod.fst (List.filter_sublist _)) hbase
  constructor
  · intro i j
    rw [mem_buildRev P.aug.length P.neigh P.rev hrev i j]
    constructor
    · exact fun hx => hx.2
    · intro hx
      refine ⟨?_, hx⟩
      by_contra hc
      push_neg at hc
      rw [getD_of_le P.neigh j [] (by omega)] at hx
      simp at hx
  · exact fun i => nodup_buildRev _ _ _ hrev hnnd i

/-- C2: after every learn call the reverse-neighborhood duality holds:
j is a member of rev_neighborhoods[i] exactly when i is a member of
neighborhoods[j], and no stale or duplicated reverse entries survive.  A
learn whose batch is entirely filtered as duplicates is a no-op and keeps
the invariant; a learn that inserts rebuilds both sides from scratch. -/
theorem C2_rev_duality (o : Oracle) (s : State) (X : List Obs) (s' : State)
    (hwf : WFdist s) (hprev : RevDual s) (h : learn o s X = some s') :
    RevDual s' := by
  by_cases he : (check_equal X s.nn).1 = []
  · have := learn_noop o s X he
    rw [this] at h
    simp only [Option.some.injEq] at h
    subst h
    exact hprev
  · obtain ⟨P, hp, rfl⟩ := learn_eq_some_pipeline o s X s' h he
    exact rebuilt_rev_dual o s (check_equal X s.nn).1 P hp hwf

/-- Witness for C2 at a concrete three-point learn from the fresh state. -/
theorem C2_witness :
    WFdist (init 2 100) ∧ RevDual (init 2 100) ∧
      learn oracle0 (init 2 100) [[0], [1], [3]] =
        some ((learn oracle0 (init 2 100) [[0], [1], [3]]).getD (init 2 100)) ∧
      RevDual ((learn oracle0 (init 2 100) [[0], [1], [3]]).getD (init 2 100)) := by
  have hwf : WFdist (init 2 100) := by
    intro inner hin
    simp [init] at hin
  have hprev : RevDual (init 2 100) := by
    constructor
    · intro i j
      simp [init]
    · intro i
      simp [init]
  have h : learn oracle0 (init 2 100) [[0], [1], [3]] =
      some ((learn oracle0 (init 2 100) [[0], [1], [3]]).getD (init 2 100)) := by
    with_unfolding_all rfl
  exact ⟨hwf, hprev, h, C2_rev_duality oracle0 (init 2 100) [[0], [1], [3]] _ hwf hprev h⟩

/-- C5: after every learn call, every stored neighbor distance is at most
the owner's k-distance: if j is in neighborhoods[i] then dist_dict[i][j]
is present with value d and d ≤ k_dist[i].  A no-op (all-duplicate) learn
keeps the already-consistent state; an inserting learn rebuilds the
neighborhoods as exactly the keys of the distance rows pruned at the
k-distance. -/
theorem C5_neighborhood_consistency (o : Oracle) (s : State) (X : List Obs) (s' : State)
    (hprev : NeighConsistent s) (h : learn o s X = some s') :
    NeighConsistent s' := by
  by_cases he : (check_equal X s.nn).1 = []
  · have := learn_noop o s X he
    rw [this] at h
    simp only [Option.some.injEq] at h
    subst h
    exact hprev
  · obtain ⟨P, hp, rfl⟩ := learn_eq_some_pipeline o s X s' h he
    obtain ⟨hlen, hpr, hng, -, -⟩ := pipeline_shapes o s (check_equal X s.nn).1 P hp
    intro i j hj
    simp only at hj ⊢
    rw [hng, getD_map_keysOf] at hj
    obtain ⟨d, hd⟩ := alookup_isSome_of_mem_keys _ _ hj
    refine ⟨d, hd, ?_⟩
    have hent : (j, d) ∈ P.pruned.getD i [] := alookup_mem_entries _ _ _ hd
    rw [hpr, getD_pruneDist _ _ hlen] at hent
    have := (List.mem_filter.1 hent).2
    exact of_decide_eq_true this

/-- Witness for C5 at a concrete three-point learn from the fresh state. -/
theorem C5_witness :
    NeighConsistent (init 2 100) ∧
      learn oracle0 (init 2 100) [[0], [1], [3]] =
        some ((learn oracle0 (init 2 100) [[0], [1], [3]]).getD (init 2 100)) ∧
      NeighConsistent ((learn oracle0 (init 2 100) [[0], [1], [3]]).getD (init 2 100)) := by
  have hprev : NeighConsistent (init 2 100) := by
    intro i j hj
    simp [init] at hj
  have h : learn oracle0 (init 2 100) [[0], [1], [3]] =
      some ((learn oracle0 (init 2 100) [[0], [1], [3]]).getD (init 2 100)) := by
    with_unfolding_all rfl
  exact ⟨hprev, h,
    C5_neighborhood_consistency oracle0 (init 2 100) [[0], [1], [3]] _ hprev h⟩

end ILOF

namespace ILOF

/-! ### C6: duplicate filtering in learn -/

theorem length_filter_not_aux (X : List Obs) (p : Obs → Bool) :
    (X.filter p).length + (X.filter (fun x => !(p x))).length = X.length := by
  induction X with
  | nil => simp
  | cons a t ih =>
    by_cases h : p a = true
    · simp [List.filter_cons, h, ← ih]
      omega
    · have h2 : p a = false := by simpa using h
      simp [List.filter_cons, h2, ← ih]
      omega

/-- C6: a batch passed to learn is filtered against the committed vectors
before insertion; the reported duplicate count equals the number of batch
entries equal to some committed vector; an all-duplicate batch is a no-op
(never an error); and on an inserting learn, new identities are assigned
to exactly the retained entries, so duplicates consume no identity. -/
theorem C6_duplicate_filtering (o : Oracle) (s : State) (X : List Obs) :
    (check_equal X s.nn).1 = X.filter (fun x => decide (¬ ∃ y ∈ s.nn, x = y.1)) ∧
    (check_equal X s.nn).2 = (X.filter (fun x => decide (∃ y ∈ s.nn, x = y.1))).length ∧
    ((check_equal X s.nn).1 = [] → learn o s X = some s) ∧
    (∀ s', learn o s X = some s' →
      s'.count = s.count + (check_equal X s.nn).1.length ∧
      s'.nn = s.nn ++ (check_equal X s.nn).1.enum.map (fun p => (p.2, s.count + p.1))) := by
  refine ⟨rfl, ?_, learn_noop o s X, ?_⟩
  · show X.length - (X.filter (fun x => decide (¬ ∃ y ∈ s.nn, x = y.1))).length = _
    have := length_filter_not_aux X (fun x => decide (∃ y ∈ s.nn, x = y.1))
    have h2 : (fun x => !(decide (∃ y ∈ s.nn, x = y.1))) =
        (fun x => decide (¬ ∃ y ∈ s.nn, x = y.1)) := by
      funext x
      simp [decide_not]
    rw [h2] at this
    omega
  · intro s' h
    by_cases he : (check_equal X s.nn).1 = []
    · rw [learn_noop o s X he] at h
      simp only [Option.some.injEq] at h
      subst h
      simp [he]
    · obtain ⟨P, hp, rfl⟩ := learn_eq_some_pipeline o s X s' h he
      obtain ⟨r1, hic, h2⟩ := pipeline_eq_some o s (check_equal X s.nn).1 P hp
      obtain ⟨-, -, -, -, -, -, -, -, hx, hnew, hnn2⟩ := h2
      constructor
      · simp only [hnew]
        rfl
      · simp only [hnn2]
        rfl

/-- Witness for C6: against the committed three-point state, the batch
[[0], [5]] has one exact repeat; it is dropped, the count is 1, and only
[5] receives the fresh identity 3. -/
theorem C6_witness :
    (check_equal [[0], [5]]
        ((learn oracle0 (init 2 100) [[0], [1], [3]]).getD (init 2 100)).nn).1 = [[5]] ∧
    (check_equal [[0], [5]]
        ((learn oracle0 (init 2 100) [[0], [1], [3]]).getD (init 2 100)).nn).2 = 1 ∧
    learn oracle0 ((learn oracle0 (init 2 100) [[0], [1], [3]]).getD (init 2 100)) [[0], [5]] =
      some ((learn oracle0 ((learn oracle0 (init 2 100) [[0], [1], [3]]).getD (init 2 100))
        [[0], [5]]).getD (init 2 100)) ∧
    ((learn oracle0 ((learn oracle0 (init 2 100) [[0], [1], [3]]).getD (init 2 100))
        [[0], [5]]).getD (init 2 100)).count =
      ((learn oracle0 (init 2 100) [[0], [1], [3]]).getD (init 2 100)).count + 1 := by
  have h : learn oracle0 ((learn oracle0 (init 2 100) [[0], [1], [3]]).getD (init 2 100))
      [[0], [5]] =
      some ((learn oracle0 ((learn oracle0 (init 2 100) [[0], [1], [3]]).getD (init 2 100))
        [[0], [5]]).getD (init 2 100)) := by
    with_unfolding_all rfl
  refine ⟨by with_unfolding_all rfl, by with_unfolding_all rfl, h, ?_⟩
  have h4 := (C6_duplicate_filtering oracle0
      ((learn oracle0 (init 2 100) [[0], [1], [3]]).getD (init 2 100)) [[0], [5]]).2.2.2 _ h
  rw [h4.1]
  have : (check_equal [[0], [5]]
      ((learn oracle0 (init 2 100) [[0], [1], [3]]).getD (init 2 100)).nn).1.length = 1 := by
    with_unfolding_all rfl
  rw [this]

/-! ### C9: the return protocol of score_one -/

/-- C9: a completed score_one call returns None exactly when the buffer
after appending x is still smaller than window_score, or every buffered
observation is an exact duplicate of a committed vector; a list of LOF
values is returned only when at least one non-duplicate observation was
scored, and it has one entry per retained observation. -/
theorem C9_score_return (o : Oracle) (s : State) (x : Obs) (w : ℤ) (s' : State)
    (r : Option (List (Option ℚ))) (h : score_one o s x w = some (s', r)) :
    (r = none ↔ (((s.X_score ++ [x]).length : ℤ) < w ∨
      (check_equal (s.X_score ++ [x]) s.nn).1 = [])) ∧
    (∀ L, r = some L →
      L.length = (check_equal (s.X_score ++ [x]) s.nn).1.length ∧ 1 ≤ L.length) := by
  unfold score_one at h
  by_cases hw : ((s.X_score ++ [x]).length : ℤ) < w
  · rw [if_pos hw] at h
    simp only [Option.some.injEq, Prod.mk.injEq] at h
    constructor
    · exact ⟨fun _ => Or.inl hw, fun _ => h.2.symm⟩
    · intro L hL
      rw [← h.2] at hL
      simp at hL
  · rw [if_neg hw] at h
    by_cases he : (check_equal (s.X_score ++ [x]) s.nn).1 = []
    · rw [if_pos (by simp [he])] at h
      simp only [Option.some.injEq, Prod.mk.injEq] at h
      constructor
      · exact ⟨fun _ => Or.inr he, fun _ => h.2.symm⟩
      · intro L hL
        rw [← h.2] at hL
        simp at hL
    · rw [if_neg (by simpa [List.isEmpty_iff] using he)] at h
      cases hp : pipeline o s (check_equal (s.X_score ++ [x]) s.nn).1 with
      | none => rw [hp] at h; simp at h
      | some P =>
        rw [hp] at h
        simp only [Option.map_some', Option.some.injEq, Prod.mk.injEq] at h
        obtain ⟨-, hr⟩ := h
        constructor
        · rw [← hr]
          constructor
          · intro hc
            exact absurd hc (by simp)
          · rintro (hc | hc)
            · exact absurd hc hw
            · exact absurd hc he
        · intro L hL
          rw [← hr] at hL
          simp only [Option.some.injEq] at hL
          subst hL
          obtain ⟨r1, hic, h2⟩ := pipeline_eq_some o s _ P hp
          obtain ⟨-, -, -, -, -, -, -, -, -, hnew, -⟩ := h2
          rw [List.length_map, List.length_range', hnew]
          show (expandPre s (check_equal (s.X_score ++ [x]) s.nn).1).n_new = _ ∧ _
      
          constructor
          · rfl
          · have : (expandPre s (check_equal (s.X_score ++ [x]) s.nn).1).n_new =
                (check_equal (s.X_score ++ [x]) s.nn).1.length := rfl
            rw [this]
            have := List.length_pos.2 he
            omega

/-- Witness for C9: one completed scoring call against the committed
three-point state, where a non-duplicate observation is scored. -/
theorem C9_witness :
    score_one oracle0 ((learn oracle0 (init 2 100) [[0], [1], [3]]).getD (init 2 100))
        [10] 1 =
      some ((score_one oracle0
        ((learn oracle0 (init 2 100) [[0], [1], [3]]).getD (init 2 100)) [10] 1).getD
          (init 2 100, none)) ∧
    (((score_one oracle0 ((learn oracle0 (init 2 100) [[0], [1], [3]]).getD (init 2 100))
          [10] 1).getD (init 2 100, none)).2 = none ↔
      (((((learn oracle0 (init 2 100) [[0], [1], [3]]).getD (init 2 100)).X_score ++
          [[10]]).length : ℤ) < 1 ∨
        (check_equal
          (((learn oracle0 (init 2 100) [[0], [1], [3]]).getD (init 2 100)).X_score ++ [[10]])
          ((learn oracle0 (init 2 100) [[0], [1], [3]]).getD (init 2 100)).nn).1 = [])) := by
  have h : score_one oracle0
      ((learn oracle0 (init 2 100) [[0], [1], [3]]).getD (init 2 100)) [10] 1 =
      some ((score_one oracle0
        ((learn oracle0 (init 2 100) [[0], [1], [3]]).getD (init 2 100)) [10] 1).getD
          (init 2 100, none)) := by
    with_unfolding_all rfl
  exact ⟨h, (C9_score_return oracle0 _ [10] 1 _ _ h).1⟩

end ILOF

namespace ILOF

/-! ### C1: the score path mutates committed state -/

/-- C1 (code bug, demonstrated at a concrete input): after learning the
batch [[0], [1], [3]] with n_neighbors = 2, one call of score_one on the
fresh observation [10] returns the LOF list [155/18] but permanently
mutates the committed state: the stored observation set, the identity
counter, the neighborhoods, the k-distances and the distance table all
change (the Python code passes the attribute dictionaries themselves into
the pipeline, which mutates them in place; only the pruned distance table
is bound to a local name and discarded, so self.dist_dict keeps the
augmented rows).  Consequently scoring is not idempotent: a second,
identical score_one call finds [10] already stored, filters it as a
duplicate, and returns None. -/
theorem C1_score_mutates_committed_state :
    learn oracle0 (init 2 100) [[0], [1], [3]] =
      some ((learn oracle0 (init 2 100) [[0], [1], [3]]).getD (init 2 100)) ∧
    score_one oracle0 ((learn oracle0 (init 2 100) [[0], [1], [3]]).getD (init 2 100))
        [10] 1 =
      some ((score_one oracle0
        ((learn oracle0 (init 2 100) [[0], [1], [3]]).getD (init 2 100)) [10] 1).getD
          (init 2 100, none)) ∧
    ((score_one oracle0 ((learn oracle0 (init 2 100) [[0], [1], [3]]).getD (init 2 100))
        [10] 1).getD (init 2 100, none)).2 = some [some (155 / 18)] ∧
    ((score_one oracle0 ((learn oracle0 (init 2 100) [[0], [1], [3]]).getD (init 2 100))
        [10] 1).getD (init 2 100, none)).1.nn ≠
      ((learn oracle0 (init 2 100) [[0], [1], [3]]).getD (init 2 100)).nn ∧
    ((score_one oracle0 ((learn oracle0 (init 2 100) [[0], [1], [3]]).getD (init 2 100))
        [10] 1).getD (init 2 100, none)).1.count ≠
      ((learn oracle0 (init 2 100) [[0], [1], [3]]).getD (init 2 100)).count ∧
    ((score_one oracle0 ((learn oracle0 (init 2 100) [[0], [1], [3]]).getD (init 2 100))
        [10] 1).getD (init 2 100, none)).1.neighborhoods ≠
      ((learn oracle0 (init 2 100) [[0], [1], [3]]).getD (init 2 100)).neighborhoods ∧
    ((score_one oracle0 ((learn oracle0 (init 2 100) [[0], [1], [3]]).getD (init 2 100))
        [10] 1).getD (init 2 100, none)).1.k_dist ≠
      ((learn oracle0 (init 2 100) [[0], [1], [3]]).getD (init 2 100)).k_dist ∧
    ((score_one oracle0 ((learn oracle0 (init 2 100) [[0], [1], [3]]).getD (init 2 100))
        [10] 1).getD (init 2 100, none)).1.dist_dict ≠
      ((learn oracle0 (init 2 100) [[0], [1], [3]]).getD (init 2 100)).dist_dict ∧
    score_one oracle0
        ((score_one oracle0 ((learn oracle0 (init 2 100) [[0], [1], [3]]).getD (init 2 100))
          [10] 1).getD (init 2 100, none)).1 [10] 1 =
      some (((score_one oracle0
        ((learn oracle0 (init 2 100) [[0], [1], [3]]).getD (init 2 100)) [10] 1).getD
          (init 2 100, none)).1, none) := by
  with_unfolding_all decide

end ILOF

namespace ILOF

/-! ### C4: the committed k-distances -/

theorem qinsert_length (x : ℚ) (l : List ℚ) : (qinsert x l).length = l.length + 1 := by
  induction l with
  | nil => rfl
  | cons y t ih =>
    by_cases h : x ≤ y
    · simp [qinsert, if_pos h]
    · simp [qinsert, if_neg h, ih]

theorem isort_length (l : List ℚ) : (isort l).length = l.length := by
  induction l with
  | nil => rfl
  | cons x t ih => simp [isort, qinsert_length, ih]

theorem get?_eq_some_getD (l : List ℚ) (n : ℕ) (h : n < l.length) :
    l.get? n = some (l.getD n 0) := by
  rw [List.getD_eq_getElem?_getD, List.get?_eq_getElem?, List.getElem?_eq_getElem h]
  rfl

theorem pyGet_nil (i : ℤ) : pyGet [] i = none := by
  unfold pyGet
  split
  · rfl
  · split
    · rfl
    · rfl

theorem computeKdist_eq_some (k : ℤ) (hk : 1 ≤ k) (inner : List (ℕ × ℚ))
    (v : WithTop ℚ) (h : computeKdist k inner = some v) :
    inner ≠ [] ∧
    (k ≤ (inner.length : ℤ) →
      v = (nthSmallest (inner.map Prod.snd) (k.toNat - 1) : ℚ)) ∧
    ((inner.length : ℤ) < k →
      v = (nthSmallest (inner.map Prod.snd) (inner.length - 1) : ℚ)) ∧
    v ≠ ⊤ := by
  unfold computeKdist at h
  cases hq : pyGet (isort (inner.map Prod.snd)) (min k (inner.length : ℤ) - 1) with
  | none => rw [hq] at h; simp at h
  | some q =>
    rw [hq] at h
    simp at h
    subst h
    have hne : inner ≠ [] := by
      intro hc
      subst hc
      rw [show isort (List.map Prod.snd ([] : List (ℕ × ℚ))) = [] from rfl,
        pyGet_nil] at hq
      exact Option.noConfusion hq
    refine ⟨hne, ?_, ?_, WithTop.coe_ne_top⟩
    · intro hle
      have hmin : min k (inner.length : ℤ) = k := min_eq_left hle
      rw [hmin] at hq
      unfold pyGet at hq
      rw [if_pos (by omega)] at hq
      have hlt : (k - 1).toNat < (isort (inner.map Prod.snd)).length := by
        rw [isort_length, List.length_map]
        omega
      rw [get?_eq_some_getD _ _ hlt] at hq
      simp only [Option.some.injEq] at hq
      rw [← hq]
      have : (k - 1).toNat = k.toNat - 1 := by omega
      rw [this]
      rfl
    · intro hlt
      have hlen1 : 1 ≤ inner.length := by
        cases inner with
        | nil => exact absurd rfl hne
        | cons a t => simp
      have hmin : min k (inner.length : ℤ) = (inner.length : ℤ) :=
        min_eq_right (by omega)
      rw [hmin] at hq
      unfold pyGet at hq
      rw [if_pos (by omega)] at hq
      have hlt2 : ((inner.length : ℤ) - 1).toNat < (isort (inner.map Prod.snd)).length := by
        rw [isort_length, List.length_map]
        omega
      rw [get?_eq_some_getD _ _ hlt2] at hq
      simp only [Option.some.injEq] at hq
      rw [← hq]
      have : ((inner.length : ℤ) - 1).toNat = inner.length - 1 := by omega
      rw [this]
      rfl

/-- C4 counterexample: with n_neighbors = 3, after learning the two-point
batch [[0], [1]], identity 0 has exactly one known neighbor distance
(fewer than n_neighbors), yet its committed k-distance is 1 — the largest
known distance — and not positive infinity as the claim states. -/
theorem C4_counterexample :
    learn oracle0 (init 3 100) [[0], [1]] =
      some ((learn oracle0 (init 3 100) [[0], [1]]).getD (init 3 100)) ∧
    (init 3 100).n_neighbors = 3 ∧
    ((learn oracle0 (init 3 100) [[0], [1]]).getD (init 3 100)).dist_dict.getD 0 [] =
      [(1, 1)] ∧
    ((learn oracle0 (init 3 100) [[0], [1]]).getD (init 3 100)).k_dist.getD 0 ⊤ =
      ((1 : ℚ) : WithTop ℚ) ∧
    ((1 : ℚ) : WithTop ℚ) ≠ (⊤ : WithTop ℚ) := by
  with_unfolding_all decide

/-- C4 amended: after every successful pipeline run (with n_neighbors ≥ 1),
every identity's k-distance is finite and equals the min(n_neighbors, m)-th
smallest of its m ≥ 1 known distances: the n_neighbors-th smallest when at
least n_neighbors distances are known (this half of the claim holds), and
the largest known distance — not positive infinity — when fewer are
known. -/
theorem C4_amended_kdist (o : Oracle) (s : State) (Xf : List Obs) (P : Parts)
    (hk : 1 ≤ s.n_neighbors) (hp : pipeline o s Xf = some P) (i : ℕ)
    (hi : i < P.aug.length) :
    P.aug.getD i [] ≠ [] ∧
    (s.n_neighbors ≤ ((P.aug.getD i []).length : ℤ) →
      P.kd.getD i ⊤ = (nthSmallest ((P.aug.getD i []).map Prod.snd)
        (s.n_neighbors.toNat - 1) : ℚ)) ∧
    (((P.aug.getD i []).length : ℤ) < s.n_neighbors →
      P.kd.getD i ⊤ = (nthSmallest ((P.aug.getD i []).map Prod.snd)
        ((P.aug.getD i []).length - 1) : ℚ)) ∧
    P.kd.getD i ⊤ ≠ ⊤ := by
  obtain ⟨r1, hic, -⟩ := pipeline_eq_some o s Xf P hp
  obtain ⟨-, hkd, -, -, -⟩ := initial_calculations_eq_some _ _ _ _ _ _ _ _ hic
  have h := (mapM_eq_some _ _ _ hkd).2 i [] ⊤ hi
  exact computeKdist_eq_some s.n_neighbors hk _ _ h

/-- Witness for C4 at the concrete two-point run: identity 0 has one known
distance, and its k-distance is that largest (first) distance. -/
theorem C4_witness :
    (1 : ℤ) ≤ (init 3 100).n_neighbors ∧
    pipeline oracle0 (init 3 100) [[0], [1]] =
      some ((pipeline oracle0 (init 3 100) [[0], [1]]).getD partsDefault) ∧
    0 < ((pipeline oracle0 (init 3 100) [[0], [1]]).getD partsDefault).aug.length ∧
    (((pipeline oracle0 (init 3 100) [[0], [1]]).getD partsDefault).aug.getD 0 [] ≠ [] ∧
     ((init 3 100).n_neighbors ≤
        ((((pipeline oracle0 (init 3 100) [[0], [1]]).getD partsDefault).aug.getD 0
          []).length : ℤ) →
        ((pipeline oracle0 (init 3 100) [[0], [1]]).getD partsDefault).kd.getD 0 ⊤ =
          (nthSmallest ((((pipeline oracle0 (init 3 100) [[0], [1]]).getD
            partsDefault).aug.getD 0 []).map Prod.snd)
            ((init 3 100).n_neighbors.toNat - 1) : ℚ)) ∧
     (((((pipeline oracle0 (init 3 100) [[0], [1]]).getD partsDefault).aug.getD 0
          []).length : ℤ) < (init 3 100).n_neighbors →
        ((pipeline oracle0 (init 3 100) [[0], [1]]).getD partsDefault).kd.getD 0 ⊤ =
          (nthSmallest ((((pipeline oracle0 (init 3 100) [[0], [1]]).getD
            partsDefault).aug.getD 0 []).map Prod.snd)
            ((((pipeline oracle0 (init 3 100) [[0], [1]]).getD partsDefault).aug.getD 0
              []).length - 1) : ℚ)) ∧
     ((pipeline oracle0 (init 3 100) [[0], [1]]).getD partsDefault).kd.getD 0 ⊤ ≠ ⊤) := by
  have hp : pipeline oracle0 (init 3 100) [[0], [1]] =
      some ((pipeline oracle0 (init 3 100) [[0], [1]]).getD partsDefault) := by
    with_unfolding_all rfl
  refine ⟨by decide, hp, by with_unfolding_all decide, ?_⟩
  exact C4_amended_kdist oracle0 (init 3 100) [[0], [1]] _ (by decide) hp 0
    (by with_unfolding_all decide)

end ILOF

namespace ILOF

/-! ### Helpers for the distance-recording analysis -/

theorem getD_set_self2 {α : Type} (l : List α) (j : ℕ) (x d : α) (h : j < l.length) :
    (l.set j x).getD j d = x := by
  rw [List.getD_eq_getElem?_getD, List.getElem?_set_self (by simpa using h)]
  rfl

theorem getD_set_ne2 {α : Type} (l : List α) (i j : ℕ) (x d : α) (h : i ≠ j) :
    (l.set j x).getD i d = l.getD i d := by
  rw [List.getD_eq_getElem?_getD, List.getElem?_set_ne (fun hc => h hc.symm),
    ← List.getD_eq_getElem?_getD]

theorem values_upsert (l : List (ℕ × ℚ)) (k : ℕ) (v v2 : ℚ)
    (h : v2 ∈ (upsert l k v).map Prod.snd) : v2 = v ∨ v2 ∈ l.map Prod.snd := by
  induction l with
  | nil => simpa [upsert] using h
  | cons p t ih =>
    obtain ⟨k2, w⟩ := p
    by_cases hk : k2 = k
    · subst hk
      simp only [upsert] at h
      rw [if_true] at h
      simp only [List.map_cons, List.mem_cons] at h ⊢
      tauto
    · simp only [upsert, if_neg hk, List.map_cons, List.mem_cons] at h ⊢
      rcases h with h2 | h2
      · exact Or.inr (Or.inl h2)
      · rcases ih h2 with h3 | h3
        · exact Or.inl h3
        · exact Or.inr (Or.inr h3)

theorem addDist_values (dd dd2 : List (List (ℕ × ℚ))) (t : ℕ × ℕ × ℚ)
    (h : addDist dd t = some dd2) :
    ∀ inner ∈ dd2, ∀ v ∈ inner.map Prod.snd,
      (∃ inner0 ∈ dd, v ∈ inner0.map Prod.snd) ∨ v = t.2.2 := by
  have hrow : ∀ (i : ℕ) (v : ℚ), v ∈ (dd.getD i []).map Prod.snd →
      ∃ inner0 ∈ dd, v ∈ inner0.map Prod.snd := by
    intro i v hv
    rcases getD_mem_or_default dd i [] with hm | he
    · exact ⟨_, hm, hv⟩
    · rw [he] at hv; simp at hv
  unfold addDist at h
  split at h
  · simp only [Option.some.injEq] at h
    subst h
    intro inner hin v hv
    rcases List.mem_or_eq_of_mem_set hin with hin2 | heq
    · rcases List.mem_or_eq_of_mem_set hin2 with hin3 | heq
      · exact Or.inl ⟨_, hin3, hv⟩
      · rw [heq] at hv
        rcases values_upsert _ _ _ _ hv with h2 | h2
        · exact Or.inr h2
        · exact Or.inl (hrow t.1 v h2)
    · rw [heq] at hv
      rcases values_upsert _ _ _ _ hv with h2 | h2
      · exact Or.inr h2
      · rcases getD_mem_or_default (dd.set t.1 (upsert (dd.getD t.1 []) t.2.1 t.2.2))
            t.2.1 [] with hm | he
        · rcases List.mem_or_eq_of_mem_set hm with hin3 | heq2
          · exact Or.inl ⟨_, hin3, h2⟩
          · rw [heq2] at h2
            rcases values_upsert _ _ _ _ h2 with h3 | h3
            · exact Or.inr h3
            · exact Or.inl (hrow t.1 v h3)
        · rw [he] at h2; simp at h2
  · simp at h

theorem augment_values (ts : List (ℕ × ℕ × ℚ)) (dd aug : List (List (ℕ × ℚ)))
    (h : augment dd ts = some aug) :
    ∀ inner ∈ aug, ∀ v ∈ inner.map Prod.snd,
      (∃ inner0 ∈ dd, v ∈ inner0.map Prod.snd) ∨ ∃ t ∈ ts, v = t.2.2 := by
  induction ts generalizing dd with
  | nil =>
    simp only [augment, List.foldlM_nil, Option.pure_def, Option.some.injEq] at h
    subst h
    intro inner hin v hv
    exact Or.inl ⟨inner, hin, hv⟩
  | cons t ts ih =>
    simp only [augment, List.foldlM_cons] at h
    cases had : addDist dd t with
    | none => rw [had] at h; simp at h
    | some dd2 =>
      rw [had] at h
      simp only [Option.bind_eq_bind, Option.some_bind] at h
      intro inner hin v hv
      rcases ih dd2 h inner hin v hv with h2 | ⟨t2, ht2, hvt⟩
      · obtain ⟨inner0, hin0, hv0⟩ := h2
        rcases addDist_values dd dd2 t had inner0 hin0 v hv0 with h3 | h3
        · exact Or.inl h3
        · exact Or.inr ⟨t, List.mem_cons_self _ _, h3⟩
      · exact Or.inr ⟨t2, List.mem_cons_of_mem _ ht2, hvt⟩

theorem addDist_lookup_touch (dd dd2 : List (List (ℕ × ℚ))) (t : ℕ × ℕ × ℚ) (a b : ℕ)
    (hab : a ≠ b) (h : addDist dd t = some dd2)
    (ht : (t.1 = a ∧ t.2.1 = b) ∨ (t.1 = b ∧ t.2.1 = a)) :
    alookup b (dd2.getD a []) = some t.2.2 := by
  obtain ⟨t1, t21, tv⟩ := t
  simp only at ht ⊢
  unfold addDist at h
  split at h
  · rename_i hbnd
    simp only at hbnd
    simp only [Option.some.injEq] at h
    subst h
    rcases ht with ⟨h1, h2⟩ | ⟨h1, h2⟩
    · subst h1; subst h2
      rw [getD_set_ne2 _ _ _ _ _ hab, getD_set_self2 _ _ _ _ hbnd.1]
      exact alookup_upsert_self _ _ _
    · subst h1; subst h2
      rw [getD_set_self2 _ _ _ _ (by simpa using hbnd.2)]
      exact alookup_upsert_self _ _ _
  · simp at h

theorem alookup_getD_set (X : List (List (ℕ × ℚ))) (i : ℕ) (r : List (ℕ × ℚ))
    (a b : ℕ) (hi : i < X.length) :
    alookup b ((X.set i r).getD a []) =
      if i = a then alookup b r else alookup b (X.getD a []) := by
  by_cases h : i = a
  · rw [if_pos h, ← h, getD_set_self2 _ _ _ _ hi]
  · rw [if_neg h, getD_set_ne2 _ _ _ _ _ (fun hc => h hc.symm)]

theorem addDist_lookup_preserved (dd dd2 : List (List (ℕ × ℚ))) (t : ℕ × ℕ × ℚ)
    (a b : ℕ) (h : addDist dd t = some dd2)
    (hnt : ¬((t.1 = a ∧ t.2.1 = b) ∨ (t.1 = b ∧ t.2.1 = a))) :
    alookup b (dd2.getD a []) = alookup b (dd.getD a []) := by
  obtain ⟨t1, t2⟩ := t
  obtain ⟨t21, tv⟩ := t2
  simp only at hnt
  push_neg at hnt
  unfold addDist at h
  split at h
  case isTrue hbnd =>
    simp only at hbnd
    simp only [Option.some.injEq] at h
    subst h
    rw [alookup_getD_set _ _ _ a b (by simpa using hbnd.2)]
    by_cases h21 : t21 = a
    · rw [if_pos h21]
      have hb1 : b ≠ t1 := fun hc => (hnt.2 hc.symm) h21
      rw [alookup_upsert_ne _ _ _ _ hb1]
      rw [alookup_getD_set _ _ _ t21 b hbnd.1]
      by_cases h1 : t1 = t21
      · rw [if_pos h1]
        have hb2 : b ≠ t21 := fun hc => (hnt.1 (h1.trans h21)) hc.symm
        rw [alookup_upsert_ne _ _ _ _ hb2, h1, h21]
      · rw [if_neg h1, h21]
    · rw [if_neg h21]
      rw [alookup_getD_set _ _ _ a b hbnd.1]
      by_cases h1 : t1 = a
      · rw [if_pos h1]
        have hb2 : b ≠ t21 := fun hc => (hnt.1 h1) hc.symm
        rw [alookup_upsert_ne _ _ _ _ hb2, h1]
      · rw [if_neg h1]
  case isFalse => simp at h

end ILOF

namespace ILOF

theorem sqSum_nonneg (l : List ℚ) : 0 ≤ sqSum l := by
  induction l with
  | nil => exact le_refl 0
  | cons x t ih => exact add_nonneg (mul_self_nonneg x) ih

theorem sqDiffSum_nonneg (a b : Obs) : 0 ≤ sqDiffSum a b := by
  induction a generalizing b with
  | nil => simpa [sqDiffSum] using sqSum_nonneg b
  | cons x xs ih =>
    cases b with
    | nil => exact add_nonneg (mul_self_nonneg _) (ih [])
    | cons y ys => exact add_nonneg (mul_self_nonneg _) (ih ys)

theorem sqDiffSum_self (a : Obs) : sqDiffSum a a = 0 := by
  induction a with
  | nil => rfl
  | cons x xs ih => simp [sqDiffSum, ih]

theorem mem_qinsert (x y : ℚ) (l : List ℚ) : x ∈ qinsert y l ↔ x = y ∨ x ∈ l := by
  induction l with
  | nil => simp [qinsert]
  | cons z t ih =>
    by_cases h : y ≤ z
    · simp only [qinsert, if_pos h, List.mem_cons]
    · simp only [qinsert, if_neg h, List.mem_cons, ih]
      tauto

theorem mem_isort (l : List ℚ) (x : ℚ) : x ∈ isort l ↔ x ∈ l := by
  induction l with
  | nil => simp [isort]
  | cons y t ih =>
    simp only [isort, mem_qinsert, List.mem_cons, ih]

theorem pyGet_mem (l : List ℚ) (i : ℤ) (q : ℚ) (h : pyGet l i = some q) : q ∈ l := by
  unfold pyGet at h
  split at h
  · exact List.get?_mem h
  · split at h
    · exact List.get?_mem h
    · exact Option.noConfusion h

theorem computeKdist_mem_val (k : ℤ) (inner : List (ℕ × ℚ)) (v : WithTop ℚ)
    (h : computeKdist k inner = some v) :
    ∃ q : ℚ, v = (q : WithTop ℚ) ∧ q ∈ inner.map Prod.snd := by
  unfold computeKdist at h
  cases hq : pyGet (isort (inner.map Prod.snd)) (min k (inner.length : ℤ) - 1) with
  | none => rw [hq] at h; simp at h
  | some q =>
    rw [hq] at h
    simp at h
    exact ⟨q, h.symm, (mem_isort _ _).1 (pyGet_mem _ _ _ hq)⟩

theorem alookup_filter (l : List (ℕ × ℚ)) (p : ℕ × ℚ → Bool) (b : ℕ) (v : ℚ)
    (h : alookup b l = some v) (hp : p (b, v) = true) :
    alookup b (l.filter p) = some v := by
  induction l with
  | nil => simp [alookup] at h
  | cons e t ih =>
    obtain ⟨k2, w⟩ := e
    by_cases hk : b = k2
    · subst hk
      have hw : w = v := by simpa [alookup] using h
      subst hw
      rw [List.filter_cons_of_pos hp]
      simp [alookup]
    · simp only [alookup, if_neg hk] at h
      rw [List.filter_cons]
      by_cases hpe : p (k2, w) = true
      · rw [if_pos hpe]
        simp only [alookup, if_neg hk]
        exact ih h
      · rw [if_neg hpe]
        exact ih h

theorem getD_append_left {α : Type} (l1 l2 : List α) (i : ℕ) (d : α)
    (h : i < l1.length) : (l1 ++ l2).getD i d = l1.getD i d := by
  rw [List.getD_eq_getElem?_getD, List.getElem?_append_left h, ← List.getD_eq_getElem?_getD]

theorem getD_append_right {α : Type} (l1 l2 : List α) (i : ℕ) (d : α)
    (h : l1.length ≤ i) : (l1 ++ l2).getD i d = l2.getD (i - l1.length) d := by
  rw [List.getD_eq_getElem?_getD, List.getElem?_append_right h,
    ← List.getD_eq_getElem?_getD]

theorem mem_bruteDist (n_x n_new : ℕ) (nn : List (Obs × ℕ)) (t : ℕ × ℕ × ℚ)
    (h : t ∈ bruteDist n_x n_new nn) :
    n_x ≤ t.1 ∧ t.1 < n_x + n_new ∧ t.2.1 < t.1 ∧
      t.2.2 = sqDiffSum (nn.getD t.1 ([], 0)).1 (nn.getD t.2.1 ([], 0)).1 := by
  unfold bruteDist at h
  rw [List.mem_flatMap] at h
  obtain ⟨i, hi, hmem⟩ := h
  rw [List.mem_range] at hi
  by_cases hx : n_x ≤ i
  · rw [if_pos hx] at hmem
    rw [List.mem_map] at hmem
    obtain ⟨j, hj, heq⟩ := hmem
    rw [List.mem_range] at hj
    subst heq
    exact ⟨hx, hi, hj, rfl⟩
  · rw [if_neg hx] at hmem
    simp at hmem

theorem bruteDist_intro (n_x n_new : ℕ) (nn : List (Obs × ℕ)) (i j : ℕ)
    (h1 : n_x ≤ i) (h2 : i < n_x + n_new) (h3 : j < i) :
    (i, j, sqDiffSum (nn.getD i ([], 0)).1 (nn.getD j ([], 0)).1) ∈
      bruteDist n_x n_new nn := by
  unfold bruteDist
  rw [List.mem_flatMap]
  refine ⟨i, List.mem_range.2 h2, ?_⟩
  rw [if_pos h1]
  exact List.mem_map.2 ⟨j, List.mem_range.2 h3, rfl⟩

theorem augment_lookup_const (ts : List (ℕ × ℕ × ℚ)) (dd aug : List (List (ℕ × ℚ)))
    (a b : ℕ) (d : ℚ) (hab : a ≠ b) (h : augment dd ts = some aug)
    (hval : ∀ t ∈ ts, ((t.1 = a ∧ t.2.1 = b) ∨ (t.1 = b ∧ t.2.1 = a)) → t.2.2 = d)
    (hstart : alookup b (dd.getD a []) = some d ∨
      ∃ t ∈ ts, ((t.1 = a ∧ t.2.1 = b) ∨ (t.1 = b ∧ t.2.1 = a))) :
    alookup b (aug.getD a []) = some d := by
  induction ts generalizing dd with
  | nil =>
    simp only [augment, List.foldlM_nil, Option.pure_def, Option.some.injEq] at h
    subst h
    rcases hstart with h1 | ⟨t, ht, -⟩
    · exact h1
    · simp at ht
  | cons t ts ih =>
    simp only [augment, List.foldlM_cons] at h
    cases had : addDist dd t with
    | none => rw [had] at h; simp at h
    | some dd2 =>
      rw [had] at h
      simp only [Option.bind_eq_bind, Option.some_bind] at h
      by_cases ht : (t.1 = a ∧ t.2.1 = b) ∨ (t.1 = b ∧ t.2.1 = a)
      · have hl : alookup b (dd2.getD a []) = some d := by
          rw [addDist_lookup_touch dd dd2 t a b hab had ht,
            hval t (List.mem_cons_self _ _) ht]
        exact ih dd2 h (fun t2 ht2 => hval t2 (List.mem_cons_of_mem _ ht2)) (Or.inl hl)
      · have hl : alookup b (dd2.getD a []) = alookup b (dd.getD a []) :=
          addDist_lookup_preserved dd dd2 t a b had ht
        rcases hstart with h1 | ⟨t2, ht2, htt⟩
        · exact ih dd2 h (fun t3 ht3 => hval t3 (List.mem_cons_of_mem _ ht3))
            (Or.inl (hl.trans h1))
        · rcases List.mem_cons.1 ht2 with h4 | h4
          · rw [h4] at htt
            exact absurd htt ht
          · exact ih dd2 h (fun t3 ht3 => hval t3 (List.mem_cons_of_mem _ ht3))
              (Or.inr ⟨t2, h4, htt⟩)

end ILOF

namespace ILOF

/-- C10: duplicate detection compares incoming observations only against
previously stored vectors, never within the incoming batch itself: a
batch [x, x] whose vector x equals no stored vector is retained whole by
check_equal, each copy is appended to the store under its own distinct
identity, and on a successful below-warm-up learn their pairwise distance
is recorded as zero in the committed distance table, in both
directions. -/
theorem C10_batch_internal_duplicates (o : Oracle) (s : State) (x : Obs) (s' : State)
    (hx : ∀ y ∈ s.nn, x ≠ y.1)
    (hlen : s.dist_dict.length = s.nn.length)
    (hpos : ∀ inner ∈ s.dist_dict, ∀ p ∈ inner, 0 ≤ p.2)
    (hwu : ((s.nn.length : ℤ) + 2) < s.warm_up)
    (h : learn o s [x, x] = some s') :
    check_equal [x, x] s.nn = ([x, x], 0) ∧
    s'.nn = s.nn ++ [(x, s.count), (x, s.count + 1)] ∧
    s.count ≠ s.count + 1 ∧
    alookup s.nn.length (s'.dist_dict.getD (s.nn.length + 1) []) = some 0 ∧
    alookup (s.nn.length + 1) (s'.dist_dict.getD s.nn.length []) = some 0 := by
  have hz : (decide (¬ ∃ y ∈ s.nn, x = y.1)) = true := by
    simp only [decide_eq_true_eq]
    push_neg
    exact hx
  have hfil : [x, x].filter (fun z => decide (¬ ∃ y ∈ s.nn, z = y.1)) = [x, x] := by
    simp
    intro n hn
    exact hx (x, n) hn rfl
  have hce : check_equal [x, x] s.nn = ([x, x], 0) := by
    unfold check_equal
    rw [hfil]
    simp
  have hne : (check_equal [x, x] s.nn).1 ≠ [] := by rw [hce]; simp
  obtain ⟨P, hp, rfl⟩ := learn_eq_some_pipeline o s [x, x] _ h hne
  have hXf : (check_equal [x, x] s.nn).1 = [x, x] := by rw [hce]
  rw [hXf] at hp
  obtain ⟨r1, hic, hrest⟩ := pipeline_eq_some o s [x, x] P hp
  obtain ⟨-, -, -, -, -, -, -, -, hnx, hnnew, hnn2⟩ := hrest
  obtain ⟨haug, hkd, hpr, hng, hrev⟩ := initial_calculations_eq_some _ _ _ _ _ _ _ _ hic
  have hn2 : (expandPre s [x, x]).nn2 = s.nn ++ [(x, s.count), (x, s.count + 1)] := by
    simp [expandPre, show [x, x].enum = [(0, x), (1, x)] from rfl]
  have hl2 : (expandPre s [x, x]).nn2.length = s.nn.length + 2 := by
    rw [hn2]
    simp
  have hnds2 : calculate_dist s.n_neighbors s.warm_up o (expandPre s [x, x]).n_x
      (expandPre s [x, x]).n_new (expandPre s [x, x]).nn2 =
      bruteDist s.nn.length 2 (expandPre s [x, x]).nn2 := by
    unfold calculate_dist
    rw [if_pos (by rw [hl2]; push_cast; omega)]
    rfl
  rw [hnds2] at haug
  have hv1 : ((expandPre s [x, x]).nn2.getD s.nn.length ([], 0)).1 = x := by
    rw [hn2, getD_append_right _ _ _ _ (le_refl _)]
    simp
  have hv2 : ((expandPre s [x, x]).nn2.getD (s.nn.length + 1) ([], 0)).1 = x := by
    rw [hn2, getD_append_right _ _ _ _ (by omega)]
    have : s.nn.length + 1 - s.nn.length = 1 := by omega
    rw [this]
    simp
  have hval : ∀ t ∈ bruteDist s.nn.length 2 (expandPre s [x, x]).nn2,
      ((t.1 = s.nn.length + 1 ∧ t.2.1 = s.nn.length) ∨
        (t.1 = s.nn.length ∧ t.2.1 = s.nn.length + 1)) → t.2.2 = 0 := by
    intro t ht htouch
    obtain ⟨h1, h2, h3, h4⟩ := mem_bruteDist _ _ _ _ ht
    rcases htouch with ⟨ha, hb⟩ | ⟨ha, hb⟩
    · rw [h4, ha, hb, hv1, hv2, sqDiffSum_self]
    · omega
  have hvalsym : ∀ t ∈ bruteDist s.nn.length 2 (expandPre s [x, x]).nn2,
      ((t.1 = s.nn.length ∧ t.2.1 = s.nn.length + 1) ∨
        (t.1 = s.nn.length + 1 ∧ t.2.1 = s.nn.length)) → t.2.2 = 0 := by
    intro t ht htouch
    exact hval t ht (Or.symm htouch)
  have hmem : ((s.nn.length + 1 : ℕ), (s.nn.length : ℕ),
      sqDiffSum ((expandPre s [x, x]).nn2.getD (s.nn.length + 1) ([], 0)).1
        ((expandPre s [x, x]).nn2.getD s.nn.length ([], 0)).1) ∈
      bruteDist s.nn.length 2 (expandPre s [x, x]).nn2 :=
    bruteDist_intro _ _ _ _ _ (by omega) (by omega) (by omega)
  have hlk1 : alookup s.nn.length (P.aug.getD (s.nn.length + 1) []) = some 0 := by
    refine augment_lookup_const _ _ _ _ _ 0 (by omega) haug hval (Or.inr ⟨_, hmem, ?_⟩)
    exact Or.inl ⟨rfl, rfl⟩
  have hlk2 : alookup (s.nn.length + 1) (P.aug.getD s.nn.length []) = some 0 := by
    refine augment_lookup_const _ _ _ _ _ 0 (by omega) haug hvalsym (Or.inr ⟨_, hmem, ?_⟩)
    exact Or.inr ⟨rfl, rfl⟩
  have hd0len : (expandPre s [x, x]).dist0.length = s.nn.length + 2 := by
    simp [expandPre, hlen]
  have haulen : P.aug.length = s.nn.length + 2 := by
    rw [augment_length _ _ _ haug, hd0len]
  have hkdlen : P.kd.length = P.aug.length := (mapM_eq_some _ _ _ hkd).1
  have hkd0 : ∀ r : ℕ, r < P.aug.length → ((0 : ℚ) : WithTop ℚ) ≤ P.kd.getD r ⊤ := by
    intro r hr
    have hck : computeKdist s.n_neighbors (P.aug.getD r []) = some (P.kd.getD r ⊤) :=
      (mapM_eq_some _ _ _ hkd).2 r [] ⊤ hr
    obtain ⟨q, hq, hqmem⟩ := computeKdist_mem_val _ _ _ hck
    have hrowmem : P.aug.getD r [] ∈ P.aug := by
      rcases getD_mem_or_default P.aug r [] with hm | he
      · exact hm
      · rw [he] at hqmem; simp at hqmem
    have hq0 : 0 ≤ q := by
      rcases augment_values _ _ _ haug _ hrowmem q hqmem with ⟨inner0, hin0, hv0⟩ |
          ⟨t, ht, hvt⟩
      · rcases List.mem_append.1 hin0 with hin | hin
        · obtain ⟨p2, hp2, hp2q⟩ := List.mem_map.1 hv0
          rw [← hp2q]
          exact hpos _ hin _ hp2
        · rw [List.eq_of_mem_replicate hin] at hv0
          simp at hv0
      · obtain ⟨-, -, -, h4⟩ := mem_bruteDist _ _ _ _ ht
        rw [hvt, h4]
        exact sqDiffSum_nonneg _ _
    rw [hq]
    exact_mod_cast hq0
  refine ⟨hce, ?_, by omega, ?_, ?_⟩
  · show P.nn2 = _
    rw [hnn2, hn2]
  · show alookup s.nn.length (P.pruned.getD (s.nn.length + 1) []) = some 0
    rw [hpr, getD_pruneDist _ _ hkdlen]
    exact alookup_filter _ _ _ _ hlk1
      (decide_eq_true (by simpa using hkd0 (s.nn.length + 1) (by omega)))
  · show alookup (s.nn.length + 1) (P.pruned.getD s.nn.length []) = some 0
    rw [hpr, getD_pruneDist _ _ hkdlen]
    exact alookup_filter _ _ _ _ hlk2
      (decide_eq_true (by simpa using hkd0 s.nn.length (by omega)))

end ILOF

namespace ILOF

/-- Witness for C10: against the committed three-point state, the batch
[[5], [5]] (a within-batch duplicate, not stored) is retained whole, both
copies get the distinct identities 3 and 4, and their pairwise distance 0
is committed in both directions of the distance table. -/
theorem C10_witness :
    (∀ y ∈ ((learn oracle0 (init 2 100) [[0], [1], [3]]).getD (init 2 100)).nn,
      ([5] : Obs) ≠ y.1) ∧
    ((learn oracle0 (init 2 100) [[0], [1], [3]]).getD (init 2 100)).dist_dict.length =
      ((learn oracle0 (init 2 100) [[0], [1], [3]]).getD (init 2 100)).nn.length ∧
    ((((learn oracle0 (init 2 100) [[0], [1], [3]]).getD
        (init 2 100)).nn.length : ℤ) + 2) <
      ((learn oracle0 (init 2 100) [[0], [1], [3]]).getD (init 2 100)).warm_up ∧
    learn oracle0 ((learn oracle0 (init 2 100) [[0], [1], [3]]).getD (init 2 100))
        [[5], [5]] =
      some ((learn oracle0 ((learn oracle0 (init 2 100) [[0], [1], [3]]).getD (init 2 100))
        [[5], [5]]).getD (init 2 100)) ∧
    check_equal [[5], [5]]
        ((learn oracle0 (init 2 100) [[0], [1], [3]]).getD (init 2 100)).nn =
      ([[5], [5]], 0) ∧
    alookup 3
        (((learn oracle0 ((learn oracle0 (init 2 100) [[0], [1], [3]]).getD (init 2 100))
          [[5], [5]]).getD (init 2 100)).dist_dict.getD 4 []) = some 0 ∧
    alookup 4
        (((learn oracle0 ((learn oracle0 (init 2 100) [[0], [1], [3]]).getD (init 2 100))
          [[5], [5]]).getD (init 2 100)).dist_dict.getD 3 []) = some 0 := by
  have hx : ∀ y ∈ ((learn oracle0 (init 2 100) [[0], [1], [3]]).getD (init 2 100)).nn,
      ([5] : Obs) ≠ y.1 := by
    with_unfolding_all decide
  have hlen : ((learn oracle0 (init 2 100) [[0], [1], [3]]).getD
      (init 2 100)).dist_dict.length =
      ((learn oracle0 (init 2 100) [[0], [1], [3]]).getD (init 2 100)).nn.length := by
    with_unfolding_all rfl
  have hpos : ∀ inner ∈ ((learn oracle0 (init 2 100) [[0], [1], [3]]).getD
      (init 2 100)).dist_dict, ∀ p ∈ inner, (0 : ℚ) ≤ p.2 := by
    with_unfolding_all decide
  have hwu : ((((learn oracle0 (init 2 100) [[0], [1], [3]]).getD
      (init 2 100)).nn.length : ℤ) + 2) <
      ((learn oracle0 (init 2 100) [[0], [1], [3]]).getD (init 2 100)).warm_up := by
    with_unfolding_all decide
  have h : learn oracle0 ((learn oracle0 (init 2 100) [[0], [1], [3]]).getD (init 2 100))
      [[5], [5]] =
      some ((learn oracle0 ((learn oracle0 (init 2 100) [[0], [1], [3]]).getD (init 2 100))
        [[5], [5]]).getD (init 2 100)) := by
    with_unfolding_all rfl
  have hmain := C10_batch_internal_duplicates oracle0
    ((learn oracle0 (init 2 100) [[0], [1], [3]]).getD (init 2 100)) [5] _
    hx hlen hpos hwu h
  have hn3 : ((learn oracle0 (init 2 100) [[0], [1], [3]]).getD (init 2 100)).nn.length = 3 := by
    with_unfolding_all rfl
  refine ⟨hx, hlen, hwu, h, ?_, ?_, ?_⟩
  · exact hmain.1
  · have := hmain.2.2.2.1
    rwa [hn3] at this
  · have := hmain.2.2.2.2
    rwa [hn3] at this

end ILOF

namespace ILOF

/-! ### C7: positivity of the lrd denominator -/

theorem goodNds_brute (n_x n_new : ℕ) (nn : List (Obs × ℕ)) :
    GoodNds n_x (bruteDist n_x n_new nn) := by
  intro t ht
  obtain ⟨h1, -, -, h4⟩ := mem_bruteDist _ _ _ _ ht
  exact ⟨Or.inl h1, by rw [h4]; exact sqDiffSum_nonneg _ _⟩

theorem augment_lookup_preserved (ts : List (ℕ × ℕ × ℚ))
    (dd aug : List (List (ℕ × ℚ))) (a b : ℕ) (h : augment dd ts = some aug)
    (hnt : ∀ t ∈ ts, ¬((t.1 = a ∧ t.2.1 = b) ∨ (t.1 = b ∧ t.2.1 = a))) :
    alookup b (aug.getD a []) = alookup b (dd.getD a []) := by
  induction ts generalizing dd with
  | nil =>
    simp only [augment, List.foldlM_nil, Option.pure_def, Option.some.injEq] at h
    subst h
    rfl
  | cons t ts ih =>
    simp only [augment, List.foldlM_cons] at h
    cases had : addDist dd t with
    | none => rw [had] at h; simp at h
    | some dd2 =>
      rw [had] at h
      simp only [Option.bind_eq_bind, Option.some_bind] at h
      rw [ih dd2 h (fun t2 ht2 => hnt t2 (List.mem_cons_of_mem _ ht2))]
      exact addDist_lookup_preserved dd dd2 t a b had (hnt t (List.mem_cons_self _ _))

theorem augment_keys_from (ts : List (ℕ × ℕ × ℚ)) (dd aug : List (List (ℕ × ℚ)))
    (a j : ℕ) (h : augment dd ts = some aug) (hj : j ∈ keysOf (aug.getD a [])) :
    j ∈ keysOf (dd.getD a []) ∨
      ∃ t ∈ ts, ((t.1 = a ∧ t.2.1 = j) ∨ (t.1 = j ∧ t.2.1 = a)) := by
  by_cases hnt : ∀ t ∈ ts, ¬((t.1 = a ∧ t.2.1 = j) ∨ (t.1 = j ∧ t.2.1 = a))
  · left
    obtain ⟨v, hv⟩ := alookup_isSome_of_mem_keys _ _ hj
    rw [augment_lookup_preserved ts dd aug a j h hnt] at hv
    exact mem_keys_of_alookup _ _ _ hv
  · right
    push_neg at hnt
    obtain ⟨t, ht, htt⟩ := hnt
    exact ⟨t, ht, htt⟩

theorem augment_bounds (ts : List (ℕ × ℕ × ℚ)) (dd aug : List (List (ℕ × ℚ)))
    (h : augment dd ts = some aug) :
    ∀ t ∈ ts, t.1 < dd.length ∧ t.2.1 < dd.length := by
  induction ts generalizing dd with
  | nil => simp
  | cons t ts ih =>
    simp only [augment, List.foldlM_cons] at h
    cases had : addDist dd t with
    | none => rw [had] at h; simp at h
    | some dd2 =>
      rw [had] at h
      simp only [Option.bind_eq_bind, Option.some_bind] at h
      intro t2 ht2
      rcases List.mem_cons.1 ht2 with h2 | h2
      · subst h2
        unfold addDist at had
        split at had
        · rename_i hb
          exact hb
        · simp at had
      · have := ih dd2 h t2 h2
        rwa [addDist_length dd dd2 t had] at this

theorem alookup_filter_rev (l : List (ℕ × ℚ)) (p : ℕ × ℚ → Bool) (b : ℕ) (v : ℚ)
    (hnd : (keysOf l).Nodup) (h : alookup b (l.filter p) = some v) :
    alookup b l = some v := by
  induction l with
  | nil => simp [alookup] at h
  | cons e t ih =>
    obtain ⟨k2, w⟩ := e
    simp only [keysOf, List.map_cons, List.nodup_cons] at hnd
    by_cases hk : b = k2
    · subst hk
      by_cases hpe : p (b, w) = true
      · rw [List.filter_cons_of_pos hpe] at h
        have : w = v := by simpa [alookup] using h
        simp [alookup, this]
      · rw [List.filter_cons_of_neg hpe] at h
        have hbmem : b ∈ keysOf (t.filter p) := mem_keys_of_alookup _ _ _ h
        have hsub : List.Sublist (keysOf (t.filter p)) (keysOf t) :=
          List.Sublist.map Prod.fst (List.filter_sublist _)
        exact absurd (hsub.mem hbmem) (by simpa [keysOf] using hnd.1)
    · by_cases hpe : p (k2, w) = true
      · rw [List.filter_cons_of_pos hpe] at h
        simp only [alookup, if_neg hk] at h ⊢
        exact ih hnd.2 h
      · rw [List.filter_cons_of_neg hpe] at h
        simp only [alookup, if_neg hk]
        exact ih hnd.2 h

theorem reachWrite_eq_some (pruned : List (List (ℕ × ℚ))) (kd : List (WithTop ℚ))
    (rd : List RInner) (w : ℕ × ℕ) (rd1 : List RInner)
    (h : reachWrite pruned kd rd w = some rd1) :
    ∃ d0, alookup w.2 (pruned.getD w.1 []) = some d0 ∧ w.2 < kd.length ∧
      w.1 < rd.length ∧
      rd1 = rd.set w.1
        (upsert (rd.getD w.1 []) w.2 (max (d0 : WithTop ℚ) (kd.getD w.2 ⊤))) := by
  unfold reachWrite at h
  cases hd : alookup w.2 (pruned.getD w.1 []) with
  | none => rw [hd] at h; simp at h
  | some d0 =>
    rw [hd] at h
    simp only [Option.bind_eq_bind, Option.some_bind] at h
    split at h
    · rename_i hb
      simp only [Option.pure_def, Option.some.injEq] at h
      exact ⟨d0, rfl, hb.1, hb.2, h.symm⟩
    · simp at h

theorem applyWrites_length (pruned : List (List (ℕ × ℚ))) (kd : List (WithTop ℚ))
    (ws : List (ℕ × ℕ)) (rd rd2 : List RInner)
    (h : applyWrites pruned kd ws rd = some rd2) : rd2.length = rd.length := by
  induction ws generalizing rd with
  | nil =>
    simp only [applyWrites, List.foldlM_nil, Option.pure_def, Option.some.injEq] at h
    subst h
    rfl
  | cons w ws ih =>
    simp only [applyWrites, List.foldlM_cons] at h
    cases hw : reachWrite pruned kd rd w with
    | none => rw [hw] at h; simp at h
    | some rd1 =>
      rw [hw] at h
      simp only [Option.bind_eq_bind, Option.some_bind] at h
      obtain ⟨d0, -, -, -, hset⟩ := reachWrite_eq_some _ _ _ _ _ hw
      rw [ih rd1 h, hset, List.length_set]

theorem applyWrites_lookup (pruned : List (List (ℕ × ℚ))) (kd : List (WithTop ℚ))
    (ws : List (ℕ × ℕ)) (rd rd2 : List RInner)
    (h : applyWrites pruned kd ws rd = some rd2) (a b : ℕ) :
    ((a, b) ∉ ws → alookup b (rd2.getD a []) = alookup b (rd.getD a [])) ∧
    ((a, b) ∈ ws → ∃ d, alookup b (pruned.getD a []) = some d ∧
      alookup b (rd2.getD a []) = some (max (d : WithTop ℚ) (kd.getD b ⊤))) := by
  induction ws generalizing rd with
  | nil =>
    simp only [applyWrites, List.foldlM_nil, Option.pure_def, Option.some.injEq] at h
    subst h
    exact ⟨fun _ => rfl, fun hc => absurd hc (List.not_mem_nil _)⟩
  | cons w ws ih =>
    simp only [applyWrites, List.foldlM_cons] at h
    cases hw : reachWrite pruned kd rd w with
    | none => rw [hw] at h; simp at h
    | some rd1 =>
      rw [hw] at h
      simp only [Option.bind_eq_bind, Option.some_bind] at h
      obtain ⟨d0, hd0, hkb, hab2, hset⟩ := reachWrite_eq_some _ _ _ _ _ hw
      have hstep : ∀ a2 b2 : ℕ, (a2, b2) ≠ w →
          alookup b2 (rd1.getD a2 []) = alookup b2 (rd.getD a2 []) := by
        intro a2 b2 hne
        rw [hset]
        by_cases ha : a2 = w.1
        · subst ha
          rw [getD_set_self2 _ _ _ _ hab2]
          have hbne : b2 ≠ w.2 := by
            intro hc
            exact hne (by rw [hc])
          exact alookup_upsert_ne _ _ _ _ hbne
        · rw [getD_set_ne2 _ _ _ _ _ ha]
      have hstepw : alookup w.2 (rd1.getD w.1 []) =
          some (max (d0 : WithTop ℚ) (kd.getD w.2 ⊤)) := by
        rw [hset, getD_set_self2 _ _ _ _ hab2]
        exact alookup_upsert_self _ _ _
      constructor
      · intro hnin
        have hne : (a, b) ≠ w := fun hc => hnin (hc ▸ List.mem_cons_self _ _)
        have hnin2 : (a, b) ∉ ws := fun hc => hnin (List.mem_cons_of_mem _ hc)
        rw [(ih rd1 h).1 hnin2]
        exact hstep a b hne
      · intro hin
        rcases List.mem_cons.1 hin with heq | hin2
        · by_cases hin3 : (a, b) ∈ ws
          · exact (ih rd1 h).2 hin3
          · have ha : a = w.1 := congrArg Prod.fst heq
            have hb : b = w.2 := congrArg Prod.snd heq
            refine ⟨d0, ?_, ?_⟩
            · rw [ha, hb]
              exact hd0
            · rw [(ih rd1 h).1 hin3, ha, hb]
              exact hstepw
        · exact (ih rd1 h).2 hin2

end ILOF

namespace ILOF

theorem mem_writesNew (sNew : List ℕ) (neigh rev : List (List ℕ)) (a b : ℕ) :
    (a, b) ∈ writesNew sNew neigh rev ↔
      ∃ c ∈ sNew, (c = a ∧ b ∈ neigh.getD c []) ∨ (c = b ∧ a ∈ rev.getD c []) := by
  unfold writesNew
  rw [List.mem_flatMap]
  constructor
  · rintro ⟨c, hc, hmem⟩
    rcases List.mem_append.1 hmem with hm | hm
    · obtain ⟨j, hj, heq⟩ := List.mem_map.1 hm
      have h1 : c = a := congrArg Prod.fst heq
      have h2 : j = b := congrArg Prod.snd heq
      exact ⟨c, hc, Or.inl ⟨h1, h2 ▸ hj⟩⟩
    · obtain ⟨j, hj, heq⟩ := List.mem_map.1 hm
      have h1 : j = a := congrArg Prod.fst heq
      have h2 : c = b := congrArg Prod.snd heq
      exact ⟨c, hc, Or.inr ⟨h2, h1 ▸ hj⟩⟩
  · rintro ⟨c, hc, ⟨h1, h2⟩ | ⟨h1, h2⟩⟩
    · refine ⟨c, hc, List.mem_append.2 (Or.inl ?_)⟩
      exact List.mem_map.2 ⟨b, h2, by rw [h1]⟩
    · refine ⟨c, hc, List.mem_append.2 (Or.inr ?_)⟩
      exact List.mem_map.2 ⟨a, h2, by rw [h1]⟩

theorem mem_writesOther (sRev : List ℕ) (rev : List (List ℕ)) (a b : ℕ) :
    (a, b) ∈ writesOther sRev rev ↔ ∃ j ∈ sRev, j = b ∧ a ∈ rev.getD j [] := by
  unfold writesOther
  rw [List.mem_flatMap]
  constructor
  · rintro ⟨j, hj, hmem⟩
    obtain ⟨i, hi, heq⟩ := List.mem_map.1 hmem
    have h1 : i = a := congrArg Prod.fst heq
    have h2 : j = b := congrArg Prod.snd heq
    exact ⟨j, hj, h2, h1 ▸ hi⟩
  · rintro ⟨j, hj, h1, h2⟩
    exact ⟨j, hj, List.mem_map.2 ⟨a, h2, by rw [h1]⟩⟩

/-- A reachability entry written in either phase holds
max(dist, k_dist of target). -/
theorem reach2_written (pruned : List (List (ℕ × ℚ))) (kd : List (WithTop ℚ))
    (ws1 ws2 : List (ℕ × ℕ)) (rd0 r1 r2 : List RInner) (a b : ℕ) (d : ℚ)
    (h1 : applyWrites pruned kd ws1 rd0 = some r1)
    (h2 : applyWrites pruned kd ws2 r1 = some r2)
    (hd : alookup b (pruned.getD a []) = some d)
    (hin : (a, b) ∈ ws1 ∨ (a, b) ∈ ws2) :
    alookup b (r2.getD a []) = some (max (d : WithTop ℚ) (kd.getD b ⊤)) := by
  by_cases hin2 : (a, b) ∈ ws2
  · obtain ⟨d2, hd2, hl⟩ := (applyWrites_lookup _ _ _ _ _ h2 a b).2 hin2
    rw [hd] at hd2
    have : d = d2 := by simpa using hd2
    rw [hl, this]
  · rcases hin with hin1 | hin1
    · obtain ⟨d2, hd2, hl⟩ := (applyWrites_lookup _ _ _ _ _ h1 a b).2 hin1
      rw [hd] at hd2
      have : d = d2 := by simpa using hd2
      rw [(applyWrites_lookup _ _ _ _ _ h2 a b).1 hin2, hl, this]
    · exact absurd hin1 hin2

/-- A reachability entry written in neither phase is untouched. -/
theorem reach2_unwritten (pruned : List (List (ℕ × ℚ))) (kd : List (WithTop ℚ))
    (ws1 ws2 : List (ℕ × ℕ)) (rd0 r1 r2 : List RInner) (a b : ℕ)
    (h1 : applyWrites pruned kd ws1 rd0 = some r1)
    (h2 : applyWrites pruned kd ws2 r1 = some r2)
    (hn1 : (a, b) ∉ ws1) (hn2 : (a, b) ∉ ws2) :
    alookup b (r2.getD a []) = alookup b (rd0.getD a []) := by
  rw [(applyWrites_lookup _ _ _ _ _ h2 a b).1 hn2,
    (applyWrites_lookup _ _ _ _ _ h1 a b).1 hn1]

theorem mapM_some_char {α β : Type} (f : α → Option β) (l : List α)
    (h : ∀ x ∈ l, ∃ y, f x = some y) :
    ∃ r, l.mapM f = some r ∧
      (∀ y ∈ r, ∃ x ∈ l, f x = some y) ∧ (∀ x ∈ l, ∃ y ∈ r, f x = some y) := by
  rw [← List.mapM'_eq_mapM]
  induction l with
  | nil => exact ⟨[], rfl, by simp, by simp⟩
  | cons a t ih =>
    obtain ⟨y0, hy0⟩ := h a (List.mem_cons_self _ _)
    obtain ⟨r, hr, hr1, hr2⟩ := ih (fun x hx => h x (List.mem_cons_of_mem _ hx))
    refine ⟨y0 :: r, ?_, ?_, ?_⟩
    · simp only [List.mapM', hy0, hr, Option.bind_eq_bind, Option.some_bind,
        Option.pure_def]
    · intro y hy
      rcases List.mem_cons.1 hy with hy | hy
      · exact ⟨a, List.mem_cons_self _ _, hy ▸ hy0⟩
      · obtain ⟨x, hx, hfx⟩ := hr1 y hy
        exact ⟨x, List.mem_cons_of_mem _ hx, hfx⟩
    · intro x hx
      rcases List.mem_cons.1 hx with hx | hx
      · exact ⟨y0, List.mem_cons_self _ _, hx ▸ hy0⟩
      · obtain ⟨y, hy, hfy⟩ := hr2 x hx
        exact ⟨y, List.mem_cons_of_mem _ hy, hfy⟩

theorem foldl_add_nonneg (ts : List (WithTop ℚ)) (h0 : ∀ y ∈ ts, 0 ≤ y) :
    ∀ init : WithTop ℚ, 0 ≤ init → 0 ≤ ts.foldl (· + ·) init := by
  induction ts with
  | nil => exact fun init h => h
  | cons y t ih =>
    intro init hinit
    exact ih (fun z hz => h0 z (List.mem_cons_of_mem _ hz)) (init + y)
      (add_nonneg hinit (h0 y (List.mem_cons_self _ _)))

theorem foldl_add_ge_init (ts : List (WithTop ℚ)) (h0 : ∀ y ∈ ts, 0 ≤ y) :
    ∀ init : WithTop ℚ, init ≤ ts.foldl (· + ·) init := by
  induction ts with
  | nil => exact fun init => le_refl init
  | cons y t ih =>
    intro init
    calc init ≤ init + y := le_add_of_nonneg_right (h0 y (List.mem_cons_self _ _))
    _ ≤ t.foldl (· + ·) (init + y) :=
      ih (fun z hz => h0 z (List.mem_cons_of_mem _ hz)) (init + y)

theorem foldl_add_pos (ts : List (WithTop ℚ)) (h0 : ∀ y ∈ ts, 0 ≤ y)
    (hex : ∃ y ∈ ts, 0 < y) : 0 < ts.foldl (· + ·) 0 := by
  obtain ⟨y0, hy0, hy0pos⟩ := hex
  obtain ⟨l1, l2, rfl⟩ := List.append_of_mem hy0
  rw [List.foldl_append]
  have ha : 0 ≤ l1.foldl (· + ·) 0 :=
    foldl_add_nonneg l1 (fun z hz => h0 z (by simp [hz])) 0 (le_refl 0)
  have hb : 0 < l1.foldl (· + ·) 0 + y0 :=
    lt_of_lt_of_le hy0pos (le_add_of_nonneg_left ha)
  calc (0 : WithTop ℚ) < l1.foldl (· + ·) 0 + y0 := hb
  _ ≤ l2.foldl (· + ·) (l1.foldl (· + ·) 0 + y0) := by
      refine foldl_add_ge_init l2 (fun z hz => h0 z ?_) _
      simp [hz]
  _ = (y0 :: l2).foldl (· + ·) (l1.foldl (· + ·) 0) := by
      rw [List.foldl_cons]

end ILOF

namespace ILOF

/-- Core of C7: after one pipeline run from a state satisfying the
invariant, every current neighbor j of every identity i has a recorded
distance d ≥ 0 and a recorded reachability distance r ≥ d: new pairs are
written by calc_reach_dist_newpoints (and possibly rewritten with the
same value by calc_reach_dist_otherpoints), while surviving old pairs
either get rewritten with max(dist, k_dist) or keep their old value,
which the invariant already bounds below by the unchanged distance. -/
theorem reach_presence (o : Oracle) (s : State) (Xf : List Obs) (P : Parts)
    (hinv : DistReachInv s) (hp : pipeline o s Xf = some P)
    (hgood : GoodNds s.nn.length (calculate_dist s.n_neighbors s.warm_up o
      (expandPre s Xf).n_x (expandPre s Xf).n_new (expandPre s Xf).nn2)) :
    ∀ i j, j ∈ P.neigh.getD i [] →
      ∃ d r, alookup j (P.pruned.getD i []) = some d ∧ 0 ≤ d ∧
        alookup j (P.reach.getD i []) = some r ∧ (d : WithTop ℚ) ≤ r := by
  obtain ⟨r1, hic, hsNew, hsRev, hsLrd, hsLof, hw1, hw2, hlr, hlf, hnx, hnnew, hnn2⟩ :=
    pipeline_eq_some o s Xf P hp
  obtain ⟨haug, hkd, hpr, hng, hrev⟩ := initial_calculations_eq_some _ _ _ _ _ _ _ _ hic
  obtain ⟨hdl, hnl, hrl, hnd, hvalpos, hkeys, hdr⟩ := hinv
  have hd0eq : (expandPre s Xf).dist0 = s.dist_dict ++ List.replicate Xf.length [] := rfl
  have hd0len : (expandPre s Xf).dist0.length = s.nn.length + Xf.length := by
    rw [hd0eq]
    simp [hdl]
  have hn : P.aug.length = s.nn.length + Xf.length := by
    rw [augment_length _ _ _ haug, hd0len]
  have hkdlen : P.kd.length = P.aug.length := (mapM_eq_some _ _ _ hkd).1
  have hprlen : P.pruned.length = P.aug.length := by
    rw [hpr, pruneDist_length _ _ hkdlen]
  have hnglen : P.neigh.length = P.aug.length := by
    rw [hng, List.length_map, hprlen]
  have hd0nd : ∀ inner ∈ (expandPre s Xf).dist0, (keysOf inner).Nodup := by
    rw [hd0eq]
    intro inner hin
    rcases List.mem_append.1 hin with hin | hin
    · exact hnd _ hin
    · rw [List.eq_of_mem_replicate hin]
      simp [keysOf]
  have haugnd : ∀ inner ∈ P.aug, (keysOf inner).Nodup :=
    augment_keys_nodup _ _ _ haug hd0nd
  have hsNewmem : ∀ c : ℕ, c ∈ P.sNew ↔ s.nn.length ≤ c ∧ c < P.aug.length := by
    intro c
    rw [hsNew]
    show c ∈ List.range' (expandPre s Xf).n_x (expandPre s Xf).n_new ↔ _
    rw [List.mem_range'_1]
    have h1 : (expandPre s Xf).n_x = s.nn.length := rfl
    have h2 : (expandPre s Xf).n_new = Xf.length := rfl
    rw [h1, h2, hn]
  intro i j hj
  have hjkeys : j ∈ keysOf (P.pruned.getD i []) := by
    rw [hng, getD_map_keysOf] at hj
    exact hj
  obtain ⟨d, hdlook⟩ := alookup_isSome_of_mem_keys _ _ hjkeys
  have hent : (j, d) ∈ P.pruned.getD i [] := alookup_mem_entries _ _ _ hdlook
  have hentaug : (j, d) ∈ P.aug.getD i [] := by
    rw [hpr, getD_pruneDist _ _ hkdlen] at hent
    exact List.mem_of_mem_filter hent
  have hrowmem : P.aug.getD i [] ∈ P.aug := by
    rcases getD_mem_or_default P.aug i [] with hm | he
    · exact hm
    · rw [he] at hentaug
      simp at hentaug
  have hdpos : 0 ≤ d := by
    have hvmem : d ∈ (P.aug.getD i []).map Prod.snd :=
      List.mem_map.2 ⟨(j, d), hentaug, rfl⟩
    rcases augment_values _ _ _ haug _ hrowmem d hvmem with ⟨inner0, hin0, hv0⟩ |
        ⟨t, ht, hvt⟩
    · rw [hd0eq] at hin0
      rcases List.mem_append.1 hin0 with hin | hin
      · obtain ⟨p2, hp2, hp2e⟩ := List.mem_map.1 hv0
        rw [← hp2e]
        exact (hvalpos _ hin _ hp2).1
      · rw [List.eq_of_mem_replicate hin] at hv0
        simp at hv0
    · rw [hvt]
      exact (hgood t ht).2
  have hilt : i < P.aug.length := by
    by_contra hc
    push_neg at hc
    rw [getD_of_le P.neigh i [] (by rw [hnglen]; exact hc)] at hj
    simp at hj
  have hjaugkeys : j ∈ keysOf (P.aug.getD i []) :=
    List.mem_map.2 ⟨(j, d), hentaug, rfl⟩
  have hjlt : j < P.aug.length := by
    rcases augment_keys_from _ _ _ i j haug hjaugkeys with hin | ⟨t, ht, htt⟩
    · rw [hd0eq] at hin
      by_cases hio : i < s.dist_dict.length
      · rw [getD_append_left _ _ _ _ hio] at hin
        obtain ⟨v, hv⟩ := alookup_isSome_of_mem_keys _ _ hin
        have hentv := alookup_mem_entries _ _ _ hv
        have hrow2 : s.dist_dict.getD i [] ∈ s.dist_dict := by
          rcases getD_mem_or_default s.dist_dict i [] with hm | he
          · exact hm
          · rw [he] at hentv
            simp at hentv
        have := (hvalpos _ hrow2 _ hentv).2
        omega
      · rw [getD_append_right _ _ _ _ (le_of_not_lt hio)] at hin
        have hrep : (List.replicate Xf.length ([] : List (ℕ × ℚ))).getD
            (i - s.dist_dict.length) [] = [] := by
          rcases getD_mem_or_default (List.replicate Xf.length ([] : List (ℕ × ℚ)))
              (i - s.dist_dict.length) [] with hm | he
          · exact List.eq_of_mem_replicate hm
          · exact he
        rw [hrep] at hin
        simp [keysOf] at hin
    · obtain ⟨hb1, hb2⟩ := augment_bounds _ _ _ haug t ht
      rw [hd0len] at hb1 hb2
      rcases htt with ⟨h1, h2⟩ | ⟨h1, h2⟩
      · omega
      · omega
  have hrevmem : i ∈ P.rev.getD j [] :=
    (mem_buildRev P.aug.length P.neigh P.rev hrev j i).2 ⟨hilt, hj⟩
  by_cases hjnew : s.nn.length ≤ j
  · have hjN : j ∈ P.sNew := (hsNewmem j).2 ⟨hjnew, hjlt⟩
    have hwin : (i, j) ∈ writesNew P.sNew P.neigh P.rev :=
      (mem_writesNew _ _ _ _ _).2 ⟨j, hjN, Or.inr ⟨rfl, hrevmem⟩⟩
    refine ⟨d, max (d : WithTop ℚ) (P.kd.getD j ⊤), hdlook, hdpos, ?_, le_max_left _ _⟩
    exact reach2_written _ _ _ _ _ _ _ i j d hw1 hw2 hdlook (Or.inl hwin)
  · by_cases hinew : s.nn.length ≤ i
    · have hiN : i ∈ P.sNew := (hsNewmem i).2 ⟨hinew, hilt⟩
      have hwin : (i, j) ∈ writesNew P.sNew P.neigh P.rev :=
        (mem_writesNew _ _ _ _ _).2 ⟨i, hiN, Or.inl ⟨rfl, hj⟩⟩
      refine ⟨d, max (d : WithTop ℚ) (P.kd.getD j ⊤), hdlook, hdpos, ?_, le_max_left _ _⟩
      exact reach2_written _ _ _ _ _ _ _ i j d hw1 hw2 hdlook (Or.inl hwin)
    · push_neg at hjnew hinew
      have hpres : alookup j (P.aug.getD i []) = alookup j (s.dist_dict.getD i []) := by
        have hnt : ∀ t ∈ calculate_dist s.n_neighbors s.warm_up o
            (expandPre s Xf).n_x (expandPre s Xf).n_new (expandPre s Xf).nn2,
            ¬((t.1 = i ∧ t.2.1 = j) ∨ (t.1 = j ∧ t.2.1 = i)) := by
          intro t ht htt
          have := (hgood t ht).1
          rcases htt with ⟨h1, h2⟩ | ⟨h1, h2⟩
          · omega
          · omega
        rw [augment_lookup_preserved _ _ _ i j haug hnt, hd0eq,
          getD_append_left _ _ _ _ (by rw [hdl]; exact hinew)]
      have haugl : alookup j (P.aug.getD i []) = some d := by
        have hd2 := hdlook
        rw [hpr, getD_pruneDist _ _ hkdlen] at hd2
        exact alookup_filter_rev _ _ _ _ (haugnd _ hrowmem) hd2
      have hold : alookup j (s.dist_dict.getD i []) = some d := by
        rw [← hpres]
        exact haugl
      have hjneigh_s : j ∈ s.neighborhoods.getD i [] :=
        (hkeys i j).1 (mem_keys_of_alookup _ _ _ hold)
      obtain ⟨dold, rold, hdo, hro, hdro⟩ := hdr i j hjneigh_s
      have hdeq : dold = d := by
        rw [hold] at hdo
        exact (Option.some_injective _ hdo).symm
      have hreach0 : alookup j ((expandPre s Xf).reach0.getD i []) = some rold := by
        have he : (expandPre s Xf).reach0 =
            s.reach_dist ++ List.replicate Xf.length [] := rfl
        rw [he, getD_append_left _ _ _ _ (by rw [hrl]; exact hinew)]
        exact hro
      by_cases hwin : (i, j) ∈ writesNew P.sNew P.neigh P.rev ∨
          (i, j) ∈ writesOther P.sRev P.rev
      · refine ⟨d, max (d : WithTop ℚ) (P.kd.getD j ⊤), hdlook, hdpos, ?_,
          le_max_left _ _⟩
        exact reach2_written _ _ _ _ _ _ _ i j d hw1 hw2 hdlook hwin
      · push_neg at hwin
        refine ⟨d, rold, hdlook, hdpos, ?_, ?_⟩
        · rw [reach2_unwritten _ _ _ _ _ _ _ i j hw1 hw2 hwin.1 hwin.2]
          exact hreach0
        · rw [← hdeq]
          exact hdro

end ILOF

namespace ILOF

/-- C7: for every identity i in the lrd-update set whose neighborhood
contains at least one neighbor at non-zero recorded distance, the
denominator of the lrd computation (the sum of reach_dist[i][j] over j in
neighborhoods[i]) is present and strictly positive, so the division in
calc_local_reach_dist cannot divide by zero: every reachability entry is
bounded below by the corresponding nonnegative distance, and the nonzero
neighbor contributes a strictly positive term. -/
theorem C7_lrd_denominator_positive (o : Oracle) (s : State) (Xf : List Obs)
    (P : Parts) (i : ℕ) (lr : List (Option ℚ))
    (hinv : DistReachInv s) (hp : pipeline o s Xf = some P)
    (hgood : GoodNds s.nn.length (calculate_dist s.n_neighbors s.warm_up o
      (expandPre s Xf).n_x (expandPre s Xf).n_new (expandPre s Xf).nn2))
    (_hi : i ∈ P.sLrd)
    (hnz : ∃ j ∈ P.neigh.getD i [], ∃ d, alookup j (P.pruned.getD i []) =
      some d ∧ d ≠ 0) :
    ∃ q, lrdDenom P.neigh P.reach i = some q ∧ 0 < q ∧
      ∃ lr2, lrdStep P.neigh P.reach lr i = some lr2 := by
  have hr := reach_presence o s Xf P hinv hp hgood
  have hall : ∀ j ∈ P.neigh.getD i [], ∃ y,
      alookup j (P.reach.getD i []) = some y := by
    intro j hj
    obtain ⟨d, r, -, -, hrl, -⟩ := hr i j hj
    exact ⟨r, hrl⟩
  obtain ⟨ts, hts, hts1, hts2⟩ := mapM_some_char _ _ hall
  have hnn : ∀ y ∈ ts, 0 ≤ y := by
    intro y hy
    obtain ⟨j, hj, hjy⟩ := hts1 y hy
    obtain ⟨d, r, -, hd0, hrl, hdr2⟩ := hr i j hj
    rw [hrl] at hjy
    have hry : r = y := Option.some_injective _ hjy
    rw [← hry]
    calc (0 : WithTop ℚ) ≤ (d : WithTop ℚ) := by exact_mod_cast hd0
    _ ≤ r := hdr2
  obtain ⟨j0, hj0, d0, hd0look, hd0ne⟩ := hnz
  obtain ⟨d0x, r0, hd0lookx, hd0nn, hr0look, hd0r0⟩ := hr i j0 hj0
  have hdd : d0x = d0 := by
    rw [hd0look] at hd0lookx
    exact (Option.some_injective _ hd0lookx).symm
  obtain ⟨y0, hy0mem, hy0eq⟩ := hts2 j0 hj0
  have hy0 : y0 = r0 := by
    rw [hr0look] at hy0eq
    exact (Option.some_injective _ hy0eq).symm
  have hpos : 0 < y0 := by
    rw [hy0]
    have hd0pos : 0 < d0 := lt_of_le_of_ne (hdd ▸ hd0nn) (Ne.symm hd0ne)
    calc (0 : WithTop ℚ) < (d0 : WithTop ℚ) := by exact_mod_cast hd0pos
    _ ≤ r0 := hdd ▸ hd0r0
  have hq : 0 < ts.foldl (· + ·) 0 := foldl_add_pos ts hnn ⟨y0, hy0mem, hpos⟩
  have hden : lrdDenom P.neigh P.reach i = some (ts.foldl (· + ·) 0) := by
    rw [lrdDenom, hts]
    rfl
  refine ⟨ts.foldl (· + ·) 0, hden, hq, ?_⟩
  refine ⟨lr.set i (some (pydivW (P.neigh.getD i []).length
    (ts.foldl (· + ·) 0))), ?_⟩
  simp only [lrdStep, hden, Option.bind_eq_bind, Option.some_bind,
    if_neg (ne_of_gt hq)]
  rfl

end ILOF

namespace ILOF

/-- Witness for C7: the concrete three-point pipeline run from the fresh
state, at identity 0, whose neighbor 1 sits at distance 1. -/
theorem C7_witness :
    ∃ q, lrdDenom
        ((pipeline oracle0 (init 2 100) [[0], [1], [3]]).getD partsDefault).neigh
        ((pipeline oracle0 (init 2 100) [[0], [1], [3]]).getD partsDefault).reach
        0 = some q ∧ 0 < q ∧
      ∃ lr2, lrdStep
        ((pipeline oracle0 (init 2 100) [[0], [1], [3]]).getD partsDefault).neigh
        ((pipeline oracle0 (init 2 100) [[0], [1], [3]]).getD partsDefault).reach
        [none, none, none] 0 = some lr2 :=
  C7_lrd_denominator_positive oracle0 (init 2 100) [[0], [1], [3]]
    ((pipeline oracle0 (init 2 100) [[0], [1], [3]]).getD partsDefault) 0
    [none, none, none]
    (by
      refine ⟨rfl, rfl, rfl, ?_, ?_, ?_, ?_⟩
      · intro inner hin
        simp [init] at hin
      · intro inner hin
        simp [init] at hin
      · intro i j
        simp [init, keysOf]
      · intro i j hj
        simp [init] at hj)
    (by with_unfolding_all rfl)
    (by
      unfold GoodNds
      with_unfolding_all decide)
    (by with_unfolding_all decide)
    ⟨1, by with_unfolding_all decide, 1, by with_unfolding_all rfl,
      by with_unfolding_all decide⟩

end ILOF
